import Mathlib

/-!
Verification of the ExtensionLens diagnostics engine (ConflictDetector.ts and
LogMonitor.ts), via a shallow embedding of its data model and algorithms.

The embedding models the VS Code host interfaces as explicit data:
the extension registry is a `List Extension`, the runtime command table a
`List String`, file contents are `List Char`, and the UI/file side effects of
the remediation paths are reified as explicit effect values.
JavaScript `Map` iteration order (insertion order) is modelled by
insertion-ordered association lists.
-/

namespace ExtensionLens

/-- A `commands` contribution entry of a manifest (package.json). -/
structure CommandContribution where
  command : String
deriving DecidableEq

/-- A `keybindings` contribution entry of a manifest. -/
structure KeybindingContribution where
  key : Option String
  mac : Option String
  linux : Option String
  win : Option String
  command : String
deriving DecidableEq

/-- The manifest data (package.json) of one extension, with the fields the
diagnostics engine reads.  Missing sub-fields default to empty collections,
mirroring the `|| []` defaults in the source. -/
structure PackageJSON where
  name : String
  displayName : Option String
  commands : List CommandContribution
  keybindings : List KeybindingContribution
  activationEvents : List String
deriving DecidableEq

/-- One installed extension as seen through `vscode.extensions.all`. -/
structure Extension where
  id : String
  isActive : Bool
  packageJSON : PackageJSON
deriving DecidableEq

/-- Conflict type tags, as in the `Conflict` interface of ConflictDetector.ts. -/
inductive ConflictType where
  | command
  | keybinding
  | activation
  | registration
deriving DecidableEq

/-- Conflict severities. -/
inductive Severity where
  | warning
  | error
deriving DecidableEq

/-- The `Conflict` record produced by the detectors. -/
structure Conflict where
  type : ConflictType
  id : String
  sources : List String
  severity : Severity
  description : String
  extensionId : Option String := none
deriving DecidableEq

/-- JavaScript `a || b` on a possibly-absent string: an absent or empty
string is falsy.  Used for `packageJSON.displayName || packageJSON.name`. -/
def jsOr (a : Option String) (b : String) : String :=
  match a with
  | some s => if s = "" then b else s
  | none => b

/-- The display name used for conflict sources:
`ext.packageJSON.displayName || ext.packageJSON.name`. -/
def ownerName (ext : Extension) : String :=
  jsOr ext.packageJSON.displayName ext.packageJSON.name

/-! ### Insertion-ordered multimap, modelling the JS `Map<string, string[]>`
grouping idiom used by the detectors. -/

/-- One step of `if (!map.has(k)) map.set(k, []); map.get(k)!.push(v)` on an
insertion-ordered association list. -/
def groupInsert (m : List (String × List String)) (k v : String) :
    List (String × List String) :=
  match m with
  | [] => [(k, [v])]
  | e :: rest => if e.1 = k then (e.1, e.2 ++ [v]) :: rest else e :: groupInsert rest k v

/-- Build the insertion-ordered grouping of a list of (key, value) pairs. -/
def groupPairs (pairs : List (String × String)) : List (String × List String) :=
  pairs.foldl (fun m p => groupInsert m p.1 p.2) []

/-- Look a key up in the grouping; an absent key reads as the empty group. -/
def groupLookup (m : List (String × List String)) (k : String) : List String :=
  match m.find? (fun e => decide (e.1 = k)) with
  | some e => e.2
  | none => []

theorem groupLookup_nil (k : String) : groupLookup [] k = [] := rfl

theorem groupLookup_cons (e : String × List String) (m : List (String × List String))
    (k : String) :
    groupLookup (e :: m) k = if e.1 = k then e.2 else groupLookup m k := by
  by_cases h : e.1 = k <;> simp [groupLookup, List.find?, h]

theorem groupLookup_groupInsert (m : List (String × List String)) (k v k' : String) :
    groupLookup (groupInsert m k v) k' =
      groupLookup m k' ++ (if k = k' then [v] else []) := by
  induction m with
  | nil =>
    by_cases h : k = k' <;> simp [groupInsert, groupLookup_cons, groupLookup_nil, h]
  | cons e rest ih =>
    by_cases h1 : e.1 = k
    · by_cases h2 : k = k'
      · have h3 : e.1 = k' := h1.trans h2
        simp [groupInsert, h1, groupLookup_cons, h3, h2]
      · have h3 : ¬ (e.1 = k') := fun hc => h2 (h1.symm.trans hc)
        simp [groupInsert, h1, groupLookup_cons, h3, h2]
    · by_cases h2 : e.1 = k'
      · have h4 : ¬ (k = k') := fun hc => h1 (h2.trans hc.symm)
        have h5 : ¬ (k' = k) := fun hc => h4 hc.symm
        simp [groupInsert, h1, groupLookup_cons, h2, h4, h5]
      · simp [groupInsert, h1, groupLookup_cons, h2, ih]

theorem groupLookup_foldl (pairs : List (String × String))
    (m : List (String × List String)) (k : String) :
    groupLookup (pairs.foldl (fun m p => groupInsert m p.1 p.2) m) k =
      groupLookup m k ++ ((pairs.filter (fun p => decide (p.1 = k))).map (fun p => p.2)) := by
  induction pairs generalizing m with
  | nil => simp
  | cons p rest ih =>
    simp only [List.foldl_cons, ih, groupLookup_groupInsert]
    by_cases h : p.1 = k
    · simp [List.filter_cons, h]
    · simp [List.filter_cons, h]

/-- The group stored for `k` collects exactly the values of the pairs with key
`k`, in their original order. -/
theorem groupLookup_groupPairs (pairs : List (String × String)) (k : String) :
    groupLookup (groupPairs pairs) k =
      (pairs.filter (fun p => decide (p.1 = k))).map (fun p => p.2) := by
  have h := groupLookup_foldl pairs [] k
  simpa [groupPairs, groupLookup_nil] using h

theorem groupInsert_keys (m : List (String × List String)) (k v : String) :
    (groupInsert m k v).map (fun e => e.1) =
      (if k ∈ m.map (fun e => e.1) then m.map (fun e => e.1)
       else m.map (fun e => e.1) ++ [k]) := by
  induction m with
  | nil => simp [groupInsert]
  | cons e rest ih =>
    by_cases h : e.1 = k
    · simp [groupInsert, h]
    · have hne : ¬ (k = e.1) := fun hh => h hh.symm
      by_cases h2 : k ∈ rest.map (fun e => e.1) <;>
        simp [groupInsert, h, ih, hne, h2]

theorem groupInsert_keys_nodup (m : List (String × List String)) (k v : String)
    (h : (m.map (fun e => e.1)).Nodup) :
    ((groupInsert m k v).map (fun e => e.1)).Nodup := by
  rw [groupInsert_keys]
  by_cases h2 : k ∈ m.map (fun e => e.1)
  · simpa [h2] using h
  · simp only [h2, if_false]
    simpa using List.Nodup.append h (List.nodup_singleton k) (by simpa using h2)

theorem groupPairs_keys_nodup (pairs : List (String × String)) :
    ((groupPairs pairs).map (fun e => e.1)).Nodup := by
  suffices h : ∀ (m : List (String × List String)), (m.map (fun e => e.1)).Nodup →
      ((pairs.foldl (fun m p => groupInsert m p.1 p.2) m).map (fun e => e.1)).Nodup by
    exact h [] (by simp)
  induction pairs with
  | nil => intro m hm; simpa using hm
  | cons p rest ih =>
    intro m hm
    exact ih _ (groupInsert_keys_nodup m p.1 p.2 hm)

/-- In a grouping with duplicate-free keys, every stored entry is what lookup
returns for its key. -/
theorem groupLookup_of_mem (m : List (String × List String))
    (hnd : (m.map (fun e => e.1)).Nodup) {e : String × List String} (he : e ∈ m) :
    groupLookup m e.1 = e.2 := by
  induction m with
  | nil => simp at he
  | cons f rest ih =>
    rcases List.mem_cons.mp he with he | he
    · subst he; simp [groupLookup_cons]
    · have hne : f.1 ≠ e.1 := by
        intro hcontra
        simp only [List.map_cons, List.nodup_cons] at hnd
        exact hnd.1 (hcontra ▸ (List.mem_map.mpr ⟨e, he, rfl⟩))
      rw [groupLookup_cons, if_neg hne]
      exact ih (by simp only [List.map_cons, List.nodup_cons] at hnd; exact hnd.2) he

theorem groupInsert_values_nonempty (m : List (String × List String)) (k v : String)
    (hm : ∀ e ∈ m, e.2 ≠ []) :
    ∀ e ∈ groupInsert m k v, e.2 ≠ [] := by
  induction m with
  | nil =>
    intro e he
    simp only [groupInsert, List.mem_singleton] at he
    simp [he]
  | cons f rest ih =>
    intro e he
    simp only [groupInsert] at he
    by_cases hf : f.1 = k
    · rw [if_pos hf] at he
      rcases List.mem_cons.mp he with he | he
      · subst he; simp
      · exact hm e (List.mem_cons_of_mem f he)
    · rw [if_neg hf] at he
      rcases List.mem_cons.mp he with he | he
      · exact he ▸ hm f (List.mem_cons_self f rest)
      · exact ih (fun e2 he2 => hm e2 (List.mem_cons_of_mem f he2)) e he

theorem groupPairs_values_nonempty (pairs : List (String × String)) :
    ∀ e ∈ groupPairs pairs, e.2 ≠ [] := by
  suffices h : ∀ (m : List (String × List String)), (∀ e ∈ m, e.2 ≠ []) →
      ∀ e ∈ pairs.foldl (fun m p => groupInsert m p.1 p.2) m, e.2 ≠ [] by
    exact h [] (by simp)
  induction pairs with
  | nil => intro m hm; simpa using hm
  | cons p rest ih =>
    intro m hm
    exact ih _ (groupInsert_values_nonempty m p.1 p.2 hm)

/-- Membership of an entry in the grouping is equivalent to its key having a
nonempty collected group. -/
theorem mem_groupPairs_iff (pairs : List (String × String)) (e : String × List String) :
    e ∈ groupPairs pairs ↔
      e.2 = (pairs.filter (fun p => decide (p.1 = e.1))).map (fun p => p.2) ∧ e.2 ≠ [] := by
  constructor
  · intro he
    have h1 := groupLookup_of_mem (groupPairs pairs) (groupPairs_keys_nodup pairs) he
    rw [groupLookup_groupPairs] at h1
    exact ⟨h1.symm, groupPairs_values_nonempty pairs e he⟩
  · rintro ⟨h1, h2⟩
    have hl : groupLookup (groupPairs pairs) e.1 ≠ [] := by
      rw [groupLookup_groupPairs, ← h1]; exact h2
    have hfind : ∃ f, (groupPairs pairs).find? (fun x => decide (x.1 = e.1)) = some f := by
      cases hf : (groupPairs pairs).find? (fun x => decide (x.1 = e.1)) with
      | none => simp [groupLookup, hf] at hl
      | some f => exact ⟨f, rfl⟩
    rcases hfind with ⟨f, hf⟩
    have hfm : f ∈ groupPairs pairs := List.mem_of_find?_eq_some hf
    have hfk : f.1 = e.1 := by
      have := List.find?_some hf
      simpa using this
    have hfv : f.2 = e.2 := by
      have h3 := groupLookup_of_mem (groupPairs pairs) (groupPairs_keys_nodup pairs) hfm
      rw [groupLookup_groupPairs, hfk] at h3
      exact (h1.trans h3).symm
    have : f = e := Prod.ext hfk hfv
    exact this ▸ hfm

/-! ### Command Collision detector (`detectCommandConflicts`) -/

/-- All (command id, owner display name) contribution pairs of a snapshot,
in manifest order: each `commands` entry of each extension contributes one
pair, outer order following `vscode.extensions.all`. -/
def commandPairs (exts : List Extension) : List (String × String) :=
  exts.flatMap (fun ext =>
    ext.packageJSON.commands.map (fun cmd => (cmd.command, ownerName ext)))

/-- The owner display names contributing a given command id, in manifest
order. -/
def commandContributors (exts : List Extension) (id : String) : List String :=
  ((commandPairs exts).filter (fun p => decide (p.1 = id))).map (fun p => p.2)

/-- Shallow embedding of `ConflictDetector.detectCommandConflicts`: group the
contribution pairs by command id in a `Map` (insertion order), then emit one
`error` `command` conflict per id whose group has more than one entry. -/
def detectCommandConflicts (exts : List Extension) : List Conflict :=
  ((groupPairs (commandPairs exts)).filter (fun e => decide (1 < e.2.length))).map
    (fun e =>
      { type := ConflictType.command
        id := e.1
        sources := e.2
        severity := Severity.error
        description := "Command \"" ++ e.1 ++ "\" is registered by multiple extensions" })

theorem mem_detectCommandConflicts (exts : List Extension) (c : Conflict) :
    c ∈ detectCommandConflicts exts ↔
      ∃ e ∈ groupPairs (commandPairs exts), 1 < e.2.length ∧
        c = { type := ConflictType.command
              id := e.1
              sources := e.2
              severity := Severity.error
              description := "Command \"" ++ e.1 ++ "\" is registered by multiple extensions" } := by
  simp only [detectCommandConflicts, List.mem_map, List.mem_filter]
  constructor
  · rintro ⟨e, ⟨he, hlen⟩, rfl⟩
    exact ⟨e, he, by simpa using hlen, rfl⟩
  · rintro ⟨e, he, hlen, rfl⟩
    exact ⟨e, ⟨he, by simpa using hlen⟩, rfl⟩

/-- Claim C1.  The Command Collision detector emits exactly one conflict per
command id with more than one contribution (duplicate-free conflict ids and
an emitted id iff more than one contributor), each conflict being an
`error`-severity `command` conflict whose sources are exactly the contributing
owners' display names in manifest order, so that `sources.length` equals the
contributor count. -/
theorem commandConflicts_spec (exts : List Extension) :
    (((detectCommandConflicts exts).map (fun c => c.id)).Nodup) ∧
    (∀ id : String, (∃ c ∈ detectCommandConflicts exts, c.id = id) ↔
        1 < (commandContributors exts id).length) ∧
    (∀ c ∈ detectCommandConflicts exts,
        c.type = ConflictType.command ∧ c.severity = Severity.error ∧
        c.sources = commandContributors exts c.id ∧
        c.sources.length = (commandContributors exts c.id).length) := by
  refine ⟨?_, ?_, ?_⟩
  · have hsub : ((detectCommandConflicts exts).map (fun c => c.id)).Sublist
        ((groupPairs (commandPairs exts)).map (fun e => e.1)) := by
      simp only [detectCommandConflicts, List.map_map]
      have h1 : ((groupPairs (commandPairs exts)).filter
          (fun e => decide (1 < e.2.length))).Sublist (groupPairs (commandPairs exts)) :=
        List.filter_sublist _
      simpa using h1.map (fun e => e.1)
    exact (groupPairs_keys_nodup (commandPairs exts)).sublist hsub
  · intro id
    constructor
    · rintro ⟨c, hc, rfl⟩
      rcases (mem_detectCommandConflicts exts c).mp hc with ⟨e, he, hlen, rfl⟩
      have := (mem_groupPairs_iff (commandPairs exts) e).mp he
      simpa [commandContributors, ← this.1] using hlen
    · intro hlen
      set grp := commandContributors exts id with hgrp
      have hmem : (id, grp) ∈ groupPairs (commandPairs exts) := by
        rw [mem_groupPairs_iff]
        constructor
        · simp [hgrp, commandContributors]
        · intro hnil
          have : grp = [] := hnil
          rw [this] at hlen
          simp at hlen
      refine ⟨_, (mem_detectCommandConflicts exts _).mpr ⟨(id, grp), hmem, ?_, rfl⟩, rfl⟩
      simpa [hgrp] using hlen
  · intro c hc
    rcases (mem_detectCommandConflicts exts c).mp hc with ⟨e, he, hlen, rfl⟩
    have h1 := (mem_groupPairs_iff (commandPairs exts) e).mp he
    exact ⟨rfl, rfl, by simpa [commandContributors] using h1.1, by rw [h1.1]; rfl⟩

/-- A two-extension snapshot in which both extensions contribute the command
id `dup.cmd`; used to exercise `commandConflicts_spec` at a concrete input. -/
def sampleCollisionExts : List Extension :=
  [ { id := "a.one"
      isActive := true
      packageJSON :=
        { name := "one"
          displayName := some "Ext One"
          commands := [{ command := "dup.cmd" }, { command := "solo.cmd" }]
          keybindings := []
          activationEvents := [] } }
  , { id := "b.two"
      isActive := false
      packageJSON :=
        { name := "two"
          displayName := some "Ext Two"
          commands := [{ command := "dup.cmd" }]
          keybindings := []
          activationEvents := [] } } ]

theorem commandConflicts_spec_witness :
    (1 < (commandContributors sampleCollisionExts "dup.cmd").length) ∧
    (∃ c ∈ detectCommandConflicts sampleCollisionExts, c.id = "dup.cmd") :=
  ⟨by decide, ((commandConflicts_spec sampleCollisionExts).2.1 "dup.cmd").mpr (by decide)⟩

/-! ### Activation Overlap detector (`detectActivationConflicts`) -/

/-- All (activation event, owner display name) pairs of a snapshot, skipping
the two literals `*` and `onStartupFinished`, in manifest order — the loop
body of `detectActivationConflicts` before grouping. -/
def activationPairs (exts : List Extension) : List (String × String) :=
  exts.flatMap (fun ext =>
    (ext.packageJSON.activationEvents.filter
        (fun ev => !(decide (ev = "*") || decide (ev = "onStartupFinished")))).map
      (fun ev => (ev, ownerName ext)))

/-- Shallow embedding of `ConflictDetector.detectActivationConflicts`: group
the non-excluded activation events by event string, then emit one `warning`
`activation` conflict per event whose group has more than two entries. -/
def detectActivationConflicts (exts : List Extension) : List Conflict :=
  ((groupPairs (activationPairs exts)).filter (fun e => decide (2 < e.2.length))).map
    (fun e =>
      { type := ConflictType.activation
        id := e.1
        sources := e.2
        severity := Severity.warning
        description := "Multiple extensions (" ++ toString e.2.length ++ ") activate on \""
          ++ e.1 ++ "\". This may impact editor responsiveness." })

/-- The number of declarations of an activation event across the snapshot,
counted with multiplicity (an event listed twice by one manifest counts
twice). -/
def activationDeclCount (exts : List Extension) (ev : String) : Nat :=
  (exts.flatMap (fun ext => ext.packageJSON.activationEvents)).count ev

/-- The number of distinct components whose manifest declares a given
activation event. -/
def declaringComponentCount (exts : List Extension) (ev : String) : Nat :=
  (exts.filter (fun ext => ext.packageJSON.activationEvents.contains ev)).length

/-- A one-extension snapshot whose manifest lists the same activation event
three times. -/
def tripleEventExt : List Extension :=
  [ { id := "c.three"
      isActive := true
      packageJSON :=
        { name := "three"
          displayName := some "Ext Three"
          commands := []
          keybindings := []
          activationEvents :=
            ["onLanguage:python", "onLanguage:python", "onLanguage:python"] } } ]

/-- Claim C2 as stated is false on the code: with a single component declaring
`onLanguage:python` three times, only one distinct component declares the
event (not more than 2), yet the detector emits an `activation` conflict for
it, because the source tallies declarations rather than distinct owners. -/
theorem activationConflicts_counterexample :
    declaringComponentCount tripleEventExt "onLanguage:python" = 1 ∧
    ¬ (2 < declaringComponentCount tripleEventExt "onLanguage:python") ∧
    (∃ c ∈ detectActivationConflicts tripleEventExt, c.id = "onLanguage:python") := by
  decide

theorem activationDeclCount_eq_pairs (exts : List Extension) (ev : String)
    (h1 : ev ≠ "*") (h2 : ev ≠ "onStartupFinished") :
    ((activationPairs exts).filter (fun p => decide (p.1 = ev))).length =
      activationDeclCount exts ev := by
  unfold activationPairs activationDeclCount
  induction exts with
  | nil => simp
  | cons ext rest ih =>
    simp only [List.flatMap_cons, List.filter_append, List.length_append,
      List.count_append, ih]
    congr 1
    rw [List.count_eq_countP, List.countP_eq_length_filter]
    rw [List.filter_map, List.length_map, List.filter_filter]
    congr 1
    apply List.filter_congr
    intro x _
    by_cases hx : x = ev
    · subst hx
      simp [h1, h2]
    · simp [hx]

/-- Claim C2, amended.  The Activation Overlap detector never emits a conflict
whose id is `*` or `onStartupFinished`, its emitted conflict ids are
duplicate-free, each conflict is a `warning` `activation` conflict, and a
conflict for event `E` is emitted iff `E` is not one of the two excluded
literals and is declared more than twice across the snapshot, counting
declarations with multiplicity (not distinct components). -/
theorem activationConflicts_amended (exts : List Extension) :
    (((detectActivationConflicts exts).map (fun c => c.id)).Nodup) ∧
    (∀ c ∈ detectActivationConflicts exts,
        c.id ≠ "*" ∧ c.id ≠ "onStartupFinished" ∧
        c.type = ConflictType.activation ∧ c.severity = Severity.warning) ∧
    (∀ ev : String, (∃ c ∈ detectActivationConflicts exts, c.id = ev) ↔
        (ev ≠ "*" ∧ ev ≠ "onStartupFinished" ∧ 2 < activationDeclCount exts ev)) := by
  have hmem : ∀ c : Conflict, c ∈ detectActivationConflicts exts ↔
      ∃ e ∈ groupPairs (activationPairs exts), 2 < e.2.length ∧
        c = { type := ConflictType.activation
              id := e.1
              sources := e.2
              severity := Severity.warning
              description := "Multiple extensions (" ++ toString e.2.length
                ++ ") activate on \"" ++ e.1 ++ "\". This may impact editor responsiveness." } := by
    intro c
    simp only [detectActivationConflicts, List.mem_map, List.mem_filter]
    constructor
    · rintro ⟨e, ⟨he, hlen⟩, rfl⟩
      exact ⟨e, he, by simpa using hlen, rfl⟩
    · rintro ⟨e, he, hlen, rfl⟩
      exact ⟨e, ⟨he, by simpa using hlen⟩, rfl⟩
  have hkey : ∀ p ∈ activationPairs exts, p.1 ≠ "*" ∧ p.1 ≠ "onStartupFinished" := by
    intro p hp
    simp only [activationPairs, List.mem_flatMap, List.mem_map, List.mem_filter] at hp
    rcases hp with ⟨ext, _, ev, ⟨_, hev⟩, rfl⟩
    simp only [Bool.not_eq_eq_eq_not, Bool.not_true, Bool.or_eq_false_iff,
      decide_eq_false_iff_not] at hev
    exact hev
  refine ⟨?_, ?_, ?_⟩
  · have hsub : ((detectActivationConflicts exts).map (fun c => c.id)).Sublist
        ((groupPairs (activationPairs exts)).map (fun e => e.1)) := by
      simp only [detectActivationConflicts, List.map_map]
      have h1 : ((groupPairs (activationPairs exts)).filter
          (fun e => decide (2 < e.2.length))).Sublist (groupPairs (activationPairs exts)) :=
        List.filter_sublist _
      simpa using h1.map (fun e => e.1)
    exact (groupPairs_keys_nodup (activationPairs exts)).sublist hsub
  · intro c hc
    rcases (hmem c).mp hc with ⟨e, he, hlen, rfl⟩
    have h1 := (mem_groupPairs_iff (activationPairs exts) e).mp he
    have hne : e.2 ≠ [] := h1.2
    have : ∃ p ∈ activationPairs exts, p.1 = e.1 := by
      rcases List.exists_mem_of_ne_nil e.2 hne with ⟨v, hv⟩
      rw [h1.1] at hv
      rcases List.mem_map.mp hv with ⟨p, hp, _⟩
      exact ⟨p, List.mem_of_mem_filter hp, by simpa using (List.mem_filter.mp hp).2⟩
    rcases this with ⟨p, hp, hpk⟩
    have := hkey p hp
    exact ⟨hpk ▸ this.1, hpk ▸ this.2, rfl, rfl⟩
  · intro ev
    constructor
    · rintro ⟨c, hc, rfl⟩
      rcases (hmem c).mp hc with ⟨e, he, hlen, rfl⟩
      have h1 := (mem_groupPairs_iff (activationPairs exts) e).mp he
      have hne : e.2 ≠ [] := h1.2
      have hkeys : e.1 ≠ "*" ∧ e.1 ≠ "onStartupFinished" := by
        rcases List.exists_mem_of_ne_nil e.2 hne with ⟨v, hv⟩
        rw [h1.1] at hv
        rcases List.mem_map.mp hv with ⟨p, hp, _⟩
        have hpk : p.1 = e.1 := by simpa using (List.mem_filter.mp hp).2
        exact hpk ▸ hkey p (List.mem_of_mem_filter hp)
      refine ⟨hkeys.1, hkeys.2, ?_⟩
      rw [← activationDeclCount_eq_pairs exts e.1 hkeys.1 hkeys.2]
      have : e.2.length =
          ((activationPairs exts).filter (fun p => decide (p.1 = e.1))).length := by
        rw [h1.1, List.length_map]
      rw [← this]
      exact hlen
    · rintro ⟨hv1, hv2, hcount⟩
      rw [← activationDeclCount_eq_pairs exts ev hv1 hv2] at hcount
      set grp := ((activationPairs exts).filter (fun p => decide (p.1 = ev))).map
        (fun p => p.2) with hgrp
      have hlen : 2 < grp.length := by
        rw [hgrp, List.length_map]; exact hcount
      have hmemg : (ev, grp) ∈ groupPairs (activationPairs exts) := by
        rw [mem_groupPairs_iff]
        refine ⟨by simp [hgrp], ?_⟩
        intro hnil
        have : grp = [] := hnil
        rw [this] at hlen
        simp at hlen
      exact ⟨_, (hmem _).mpr ⟨(ev, grp), hmemg, hlen, rfl⟩, rfl⟩

/-- A three-extension snapshot where three distinct components declare the
same activation event. -/
def tripleOwnerExts : List Extension :=
  [ { id := "d.one", isActive := true
      packageJSON := { name := "d1", displayName := none, commands := []
                       keybindings := [], activationEvents := ["onLanguage:lua"] } }
  , { id := "d.two", isActive := true
      packageJSON := { name := "d2", displayName := none, commands := []
                       keybindings := [], activationEvents := ["onLanguage:lua"] } }
  , { id := "d.three", isActive := true
      packageJSON := { name := "d3", displayName := none, commands := []
                       keybindings := [], activationEvents := ["onLanguage:lua"] } } ]

theorem activationConflicts_amended_witness :
    ∃ c ∈ detectActivationConflicts tripleOwnerExts, c.id = "onLanguage:lua" :=
  ((activationConflicts_amended tripleOwnerExts).2.2 "onLanguage:lua").mpr (by decide)

/-! ### Registration/Runtime Mismatch detector (`detectRegistrationMismatches`) -/

/-- Built-in extensions are skipped: ids starting with `vscode.` or
`microsoft.` (`ext.id.startsWith`, expressed on the character lists). -/
def isBuiltin (ext : Extension) : Bool :=
  "vscode.".data.isPrefixOf ext.id.data || "microsoft.".data.isPrefixOf ext.id.data

/-- The ghost-command conflict record (declared in the manifest but absent
from the runtime command table). -/
def ghostRecord (ext : Extension) (cmdId : String) : Conflict :=
  { type := ConflictType.registration
    id := cmdId
    sources := [ownerName ext]
    extensionId := some ext.id
    severity := Severity.error
    description := "Command \"" ++ cmdId
      ++ "\" is defined in package.json but not registered in code. Users will see \"Command not found\"." }

/-- The missing-activation-event conflict record. -/
def missingRecord (ext : Extension) (cmdId : String) : Conflict :=
  { type := ConflictType.registration
    id := cmdId
    sources := [ownerName ext]
    extensionId := some ext.id
    severity := Severity.warning
    description := "Command \"" ++ cmdId ++ "\" is missing \"onCommand:" ++ cmdId
      ++ "\" in activationEvents. It may fail to trigger if the extension isn\x27t already active." }

/-- The eager-activation conflict record (wildcard activation event). -/
def eagerRecord (ext : Extension) : Conflict :=
  { type := ConflictType.activation
    id := "*"
    sources := [ownerName ext]
    severity := Severity.warning
    extensionId := none
    description := "Extension uses wildcard activation (\"*\"). This significantly impacts VS Code startup time." }

/-- Check 1 of the registration detector: a command declared in the manifest
but absent from the runtime command table, for an active extension. -/
def ghostConflict (rt : List String) (ext : Extension) (cmdId : String) : List Conflict :=
  if !(rt.contains cmdId) && ext.isActive then [ghostRecord ext cmdId] else []

/-- Check 2 of the registration detector: no `onCommand:<id>` activation
event (`hasOnCommand`) and no wildcard/startup event (`hasWildcard`). -/
def missingActivationConflict (ext : Extension) (cmdId : String) : List Conflict :=
  if !(ext.packageJSON.activationEvents.contains ("onCommand:" ++ cmdId)) &&
      !(ext.packageJSON.activationEvents.contains "*" ||
        ext.packageJSON.activationEvents.contains "onStartupFinished") then
    [missingRecord ext cmdId]
  else []

/-- Check 3 of the registration detector: wildcard activation. -/
def eagerActivationConflict (ext : Extension) : List Conflict :=
  if ext.packageJSON.activationEvents.contains "*" then [eagerRecord ext] else []

/-- The conflicts the registration detector pushes for one (non-built-in)
extension: for every declared command, the ghost check then the
missing-activation check, and afterwards the eager-activation check. -/
def registrationConflictsFor (rt : List String) (ext : Extension) : List Conflict :=
  (ext.packageJSON.commands.flatMap (fun cmd =>
    ghostConflict rt ext cmd.command ++ missingActivationConflict ext cmd.command))
  ++ eagerActivationConflict ext

/-- Shallow embedding of `ConflictDetector.detectRegistrationMismatches`,
parameterised by the snapshot and the runtime command table
(`vscode.commands.getCommands(true)`). -/
def detectRegistrationMismatches (exts : List Extension) (rt : List String) : List Conflict :=
  (exts.filter (fun ext => !(isBuiltin ext))).flatMap (registrationConflictsFor rt)

/-- A single non-built-in active extension declaring the same command id
twice, with the command absent from the runtime table. -/
def dupGhostExts : List Extension :=
  [ { id := "dev.sample"
      isActive := true
      packageJSON :=
        { name := "sample"
          displayName := some "Sample"
          commands := [{ command := "foo.bar" }, { command := "foo.bar" }]
          keybindings := []
          activationEvents := ["onCommand:foo.bar"] } } ]

/-- Claim C4 as stated is false on the code: an active, non-built-in
component declaring `foo.bar` (absent from the runtime table) twice receives
two `error` `registration` conflicts for that command, not exactly one — the
detector emits one ghost conflict per declaration, not per command id. -/
theorem registrationMismatch_counterexample :
    (∃ ext ∈ dupGhostExts, isBuiltin ext = false ∧ ext.isActive = true ∧
      (∃ cmd ∈ ext.packageJSON.commands, cmd.command = "foo.bar")) ∧
    "foo.bar" ∉ ([] : List String) ∧
    ((detectRegistrationMismatches dupGhostExts []).filter
      (fun c => decide (c.type = ConflictType.registration) &&
        decide (c.severity = Severity.error) && decide (c.id = "foo.bar"))).length = 2 := by
  decide

theorem countP_ghost_missing (rt : List String) (ext : Extension) (cmdId : String)
    (cmd : CommandContribution) :
    ((ghostConflict rt ext cmd.command ++ missingActivationConflict ext cmd.command).countP
      (fun c => decide (c.extensionId = some ext.id) && decide (c.id = cmdId) &&
        decide (c.type = ConflictType.registration) && decide (c.severity = Severity.error))) =
    (if ext.isActive = true ∧ cmdId ∉ rt ∧ cmd.command = cmdId then 1 else 0) := by
  rw [List.countP_append]
  have hmiss : (missingActivationConflict ext cmd.command).countP
      (fun c => decide (c.extensionId = some ext.id) && decide (c.id = cmdId) &&
        decide (c.type = ConflictType.registration) && decide (c.severity = Severity.error)) = 0 := by
    unfold missingActivationConflict
    split
    · simp [missingRecord]
    · simp
  rw [hmiss]
  unfold ghostConflict
  by_cases hc : cmd.command = cmdId
  · subst hc
    by_cases hmem : cmd.command ∈ rt
    · have : rt.contains cmd.command = true := List.elem_eq_true_of_mem hmem
      simp [this, hmem]
    · have : rt.contains cmd.command = false := by
        cases h : rt.contains cmd.command with
        | true => exact absurd (List.mem_of_elem_eq_true h) hmem
        | false => rfl
      by_cases hact : ext.isActive = true
      · simp [this, hact, hmem, ghostRecord]
      · simp [this, hact, hmem, Bool.eq_false_iff.mpr hact]
  · have hzero : ∀ b : Bool, ((if b then [ghostRecord ext cmd.command] else []).countP
        (fun c => decide (c.extensionId = some ext.id) && decide (c.id = cmdId) &&
          decide (c.type = ConflictType.registration) && decide (c.severity = Severity.error))) = 0 := by
      intro b
      cases b
      · simp
      · simp [ghostRecord, hc]
    rw [hzero]
    simp [hc]

theorem countP_registrationConflictsFor_ne (rt : List String) (ext ext' : Extension)
    (hne : ext'.id ≠ ext.id) (cmdId : String) :
    ((registrationConflictsFor rt ext').countP
      (fun c => decide (c.extensionId = some ext.id) && decide (c.id = cmdId) &&
        decide (c.type = ConflictType.registration) && decide (c.severity = Severity.error))) = 0 := by
  rw [List.countP_eq_zero]
  intro c hc
  simp only [registrationConflictsFor, List.mem_append, List.mem_flatMap] at hc
  have hext : c.extensionId = some ext'.id ∨ c.extensionId = none := by
    rcases hc with ⟨cmd, _, hc | hc⟩ | hc
    · unfold ghostConflict at hc
      split at hc
      · rcases List.mem_singleton.mp hc with rfl
        left; rfl
      · simp at hc
    · unfold missingActivationConflict at hc
      split at hc
      · rcases List.mem_singleton.mp hc with rfl
        left; rfl
      · simp at hc
    · unfold eagerActivationConflict at hc
      split at hc
      · rcases List.mem_singleton.mp hc with rfl
        right; rfl
      · simp at hc
  rcases hext with h | h <;>
    simp [h, Option.some_inj, hne]

theorem countP_registrationConflictsFor_self (rt : List String) (ext : Extension)
    (cmdId : String) :
    ((registrationConflictsFor rt ext).countP
      (fun c => decide (c.extensionId = some ext.id) && decide (c.id = cmdId) &&
        decide (c.type = ConflictType.registration) && decide (c.severity = Severity.error))) =
    (if ext.isActive = true ∧ cmdId ∉ rt then
      (ext.packageJSON.commands.filter (fun cmd => decide (cmd.command = cmdId))).length
     else 0) := by
  unfold registrationConflictsFor
  rw [List.countP_append]
  have heager : (eagerActivationConflict ext).countP
      (fun c => decide (c.extensionId = some ext.id) && decide (c.id = cmdId) &&
        decide (c.type = ConflictType.registration) && decide (c.severity = Severity.error)) = 0 := by
    unfold eagerActivationConflict
    split
    · simp [eagerRecord]
    · simp
  rw [heager, Nat.add_zero]
  induction ext.packageJSON.commands with
  | nil => simp
  | cons cmd rest ih =>
    rw [List.flatMap_cons, List.countP_append, ih, countP_ghost_missing rt ext cmdId cmd]
    by_cases h1 : ext.isActive = true ∧ cmdId ∉ rt
    · by_cases h2 : cmd.command = cmdId
      · simp [h1, h2, List.filter_cons]
        omega
      · simp [h1, h2, List.filter_cons]
    · have : ¬ (ext.isActive = true ∧ cmdId ∉ rt ∧ cmd.command = cmdId) := by
        intro ⟨a, b, _⟩; exact h1 ⟨a, b⟩
      simp [h1, this]

theorem countP_flatMap_registration (rt : List String) (ext : Extension) (cmdId : String)
    (l : List Extension) (hmem : ext ∈ l) (hnd : (l.map (fun e => e.id)).Nodup) :
    ((l.flatMap (registrationConflictsFor rt)).countP
      (fun c => decide (c.extensionId = some ext.id) && decide (c.id = cmdId) &&
        decide (c.type = ConflictType.registration) && decide (c.severity = Severity.error))) =
    ((registrationConflictsFor rt ext).countP
      (fun c => decide (c.extensionId = some ext.id) && decide (c.id = cmdId) &&
        decide (c.type = ConflictType.registration) && decide (c.severity = Severity.error))) := by
  induction l with
  | nil => simp at hmem
  | cons e rest ih =>
    rw [List.flatMap_cons, List.countP_append]
    simp only [List.map_cons, List.nodup_cons] at hnd
    rcases List.mem_cons.mp hmem with rfl | hrest
    · have hzero : ((rest.flatMap (registrationConflictsFor rt)).countP
          (fun c => decide (c.extensionId = some ext.id) && decide (c.id = cmdId) &&
            decide (c.type = ConflictType.registration) &&
            decide (c.severity = Severity.error))) = 0 := by
        rw [List.countP_eq_zero]
        intro c hc
        rcases List.mem_flatMap.mp hc with ⟨e', he', hc'⟩
        have hne : e'.id ≠ ext.id := by
          intro hcontra
          exact hnd.1 (hcontra ▸ List.mem_map.mpr ⟨e', he', rfl⟩)
        have := countP_registrationConflictsFor_ne rt ext e' hne cmdId
        rw [List.countP_eq_zero] at this
        exact this c hc'
      rw [hzero, Nat.add_zero]
    · have hne : e.id ≠ ext.id := by
        intro hcontra
        exact hnd.1 (hcontra ▸ List.mem_map.mpr ⟨ext, hrest, rfl⟩)
      rw [countP_registrationConflictsFor_ne rt ext e hne cmdId, ih hrest hnd.2,
        Nat.zero_add]

/-- Claim C4, amended.  For a non-built-in component, the number of `error`
`registration` conflicts the detector emits for a command id equals, when the
component is active and the id is absent from the runtime command table, the
number of declarations of that id in the component's manifest (so exactly one
when the id is declared once), and zero otherwise — in particular an inactive
component receives no ghost-command conflicts whatever the table contents. -/
theorem registrationMismatch_amended (exts : List Extension) (rt : List String)
    (hids : (exts.map (fun e => e.id)).Nodup) :
    ∀ ext ∈ exts, isBuiltin ext = false → ∀ cmdId : String,
      ((detectRegistrationMismatches exts rt).filter
        (fun c => decide (c.extensionId = some ext.id) && decide (c.id = cmdId) &&
          decide (c.type = ConflictType.registration) &&
          decide (c.severity = Severity.error))).length =
      (if ext.isActive = true ∧ cmdId ∉ rt then
        (ext.packageJSON.commands.filter (fun cmd => decide (cmd.command = cmdId))).length
       else 0) := by
  intro ext hmem hnb cmdId
  rw [← List.countP_eq_length_filter]
  unfold detectRegistrationMismatches
  have hmem' : ext ∈ exts.filter (fun e => !(isBuiltin e)) :=
    List.mem_filter.mpr ⟨hmem, by simp [hnb]⟩
  have hids' : ((exts.filter (fun e => !(isBuiltin e))).map (fun e => e.id)).Nodup :=
    hids.sublist ((List.filter_sublist exts).map (fun e => e.id))
  rw [countP_flatMap_registration rt ext cmdId _ hmem' hids',
    countP_registrationConflictsFor_self rt ext cmdId]

/-- A single-declaration instance of the amended registration theorem:
`dev.solo` actively declares `solo.cmd` once, the runtime table misses it, and
exactly one `error` `registration` conflict is produced. -/
def soloGhostExts : List Extension :=
  [ { id := "dev.solo"
      isActive := true
      packageJSON :=
        { name := "solo"
          displayName := some "Solo"
          commands := [{ command := "solo.cmd" }]
          keybindings := []
          activationEvents := [] } } ]

theorem registrationMismatch_amended_witness :
    ((detectRegistrationMismatches soloGhostExts ["other.cmd"]).filter
      (fun c => decide (c.extensionId = some "dev.solo") && decide (c.id = "solo.cmd") &&
        decide (c.type = ConflictType.registration) &&
        decide (c.severity = Severity.error))).length = 1 := by
  have h := registrationMismatch_amended soloGhostExts ["other.cmd"] (by decide)
    { id := "dev.solo"
      isActive := true
      packageJSON :=
        { name := "solo"
          displayName := some "Solo"
          commands := [{ command := "solo.cmd" }]
          keybindings := []
          activationEvents := [] } } (by decide) (by decide) "solo.cmd"
  simpa using h

/-! ### Keybinding normalization (`normalizeKeybinding`)

The source applies `toLowerCase`, strips whitespace (`replace(/\s+/g, "")`),
then rewrites the literal patterns `control+ -> ctrl+`, `option+ -> alt+`,
`command+ -> cmd+`, `meta+ -> cmd+` with global `String.replace`.  A global
replace of a literal pattern finds the non-overlapping occurrences left to
right in the original text and never rescans replacement text; `replaceAll`
below implements exactly that scan. -/

/-- Global literal-pattern replacement: scan left to right; at each position,
if the (nonempty) pattern starts here, emit the replacement and continue after
the matched text, otherwise emit the current character and move on. -/
def replaceAll (p r : List Char) : List Char → List Char
  | [] => []
  | c :: s =>
    if h : p ≠ [] ∧ p.isPrefixOf (c :: s) = true then
      r ++ replaceAll p r ((c :: s).drop p.length)
    else
      c :: replaceAll p r s
termination_by s => s.length
decreasing_by
  · simp only [List.length_drop, List.length_cons]
    have : 0 < p.length := List.length_pos.mpr h.1
    omega
  · simp

theorem replaceAll_nil (p r : List Char) : replaceAll p r [] = [] := by
  rw [replaceAll]

theorem replaceAll_cons (p r : List Char) (c : Char) (s : List Char) :
    replaceAll p r (c :: s) =
      if p ≠ [] ∧ p.isPrefixOf (c :: s) = true then
        r ++ replaceAll p r ((c :: s).drop p.length)
      else
        c :: replaceAll p r s := by
  rw [replaceAll]
  split <;> simp_all

/-- A pattern containing a character absent from the text never matches. -/
theorem replaceAll_of_not_mem (p r : List Char) (a : Char) (hp : a ∈ p) :
    ∀ s : List Char, a ∉ s → replaceAll p r s = s := by
  intro s
  induction s with
  | nil => intro _; exact replaceAll_nil p r
  | cons c s ih =>
    intro hs
    rw [replaceAll_cons]
    have hnp : ¬ (p ≠ [] ∧ p.isPrefixOf (c :: s) = true) := by
      rintro ⟨_, h2⟩
      exact hs ((List.isPrefixOf_iff_prefix.mp h2).subset hp)
    rw [if_neg hnp]
    rw [ih (fun h => hs (List.mem_cons_of_mem c h))]

theorem mem_replaceAll (p r : List Char) :
    ∀ (s : List Char), ∀ c ∈ replaceAll p r s, c ∈ s ∨ c ∈ r := by
  suffices h : ∀ (n : Nat) (s : List Char), s.length ≤ n →
      ∀ c ∈ replaceAll p r s, c ∈ s ∨ c ∈ r by
    intro s
    exact h s.length s (Nat.le_refl _)
  intro n
  induction n with
  | zero =>
    intro s hs
    rw [List.length_eq_zero.mp (Nat.le_zero.mp hs)]
    simp [replaceAll_nil]
  | succ n ih =>
    intro s hs c hc
    cases s with
    | nil => simp [replaceAll_nil] at hc
    | cons a s =>
      rw [replaceAll_cons] at hc
      split at hc
      · rename_i h
        rcases List.mem_append.mp hc with hc | hc
        · exact Or.inr hc
        · have hlen : ((a :: s).drop p.length).length ≤ n := by
            have hp : 0 < p.length := List.length_pos.mpr h.1
            simp only [List.length_drop, List.length_cons]
            simp only [List.length_cons] at hs
            omega
          rcases ih _ hlen c hc with hc | hc
          · exact Or.inl (List.mem_of_mem_drop hc)
          · exact Or.inr hc
      · rcases List.mem_cons.mp hc with rfl | hc
        · exact Or.inl (List.mem_cons_self c s)
        · have hlen : s.length ≤ n := by
            simp only [List.length_cons] at hs; omega
          rcases ih s hlen c hc with hc | hc
          · exact Or.inl (List.mem_cons_of_mem a hc)
          · exact Or.inr hc

/-- Split a character list on a separator character (every occurrence), so
that `s` is the separator-interleaved join of the returned segments and no
segment contains the separator. -/
def splitChar (sep : Char) : List Char → List (List Char)
  | [] => [[]]
  | c :: s =>
    if c = sep then [] :: splitChar sep s
    else
      match splitChar sep s with
      | [] => [[c]]
      | t :: ts => (c :: t) :: ts

/-- Interleave segments with a separator character. -/
def joinChar (sep : Char) : List (List Char) → List Char
  | [] => []
  | [t] => t
  | t :: ts => t ++ sep :: joinChar sep ts

theorem joinChar_cons (sep : Char) (t : List Char) (ts : List (List Char)) (h : ts ≠ []) :
    joinChar sep (t :: ts) = t ++ sep :: joinChar sep ts := by
  cases ts with
  | nil => exact absurd rfl h
  | cons t2 ts2 => rfl

theorem splitChar_ne_nil (sep : Char) (s : List Char) : splitChar sep s ≠ [] := by
  induction s with
  | nil => simp [splitChar]
  | cons c s ih =>
    rw [splitChar]
    by_cases h : c = sep
    · simp [h]
    · rw [if_neg h]
      cases hs : splitChar sep s with
      | nil => simp
      | cons t ts => simp

theorem joinChar_splitChar (sep : Char) (s : List Char) :
    joinChar sep (splitChar sep s) = s := by
  induction s with
  | nil => rfl
  | cons c s ih =>
    rw [splitChar]
    by_cases h : c = sep
    · rw [if_pos h, joinChar_cons sep [] _ (splitChar_ne_nil sep s), ih, h,
        List.nil_append]
    · rw [if_neg h]
      cases hs : splitChar sep s with
      | nil => exact absurd hs (splitChar_ne_nil sep s)
      | cons t ts =>
        rw [hs] at ih
        cases ts with
        | nil =>
          simp only [joinChar] at ih ⊢
          rw [ih]
        | cons t2 ts2 =>
          rw [joinChar_cons sep (c :: t) _ (by simp), List.cons_append]
          rw [joinChar_cons sep t _ (by simp)] at ih
          rw [ih]

theorem splitChar_not_mem (sep : Char) (s : List Char) :
    ∀ t ∈ splitChar sep s, sep ∉ t := by
  induction s with
  | nil => simp [splitChar]
  | cons c s ih =>
    rw [splitChar]
    by_cases h : c = sep
    · rw [if_pos h]
      intro t ht
      rcases List.mem_cons.mp ht with rfl | ht
      · simp
      · exact ih t ht
    · rw [if_neg h]
      cases hs : splitChar sep s with
      | nil =>
        intro t ht
        rcases List.mem_singleton.mp ht with rfl
        intro hm
        exact h (List.mem_singleton.mp hm).symm
      | cons t0 ts =>
        intro t ht
        rcases List.mem_cons.mp ht with rfl | ht
        · intro hmem
          rcases List.mem_cons.mp hmem with hc | hc
          · exact h hc.symm
          · exact ih t0 (hs ▸ List.mem_cons_self t0 ts) hc
        · exact ih t (hs ▸ List.mem_cons_of_mem t0 ht)

theorem splitChar_of_not_mem (sep : Char) (t : List Char) (ht : sep ∉ t) :
    splitChar sep t = [t] := by
  induction t with
  | nil => rfl
  | cons c t ih =>
    have hcne : ¬ (c = sep) := by
      intro h
      subst h
      exact ht (List.mem_cons_self c t)
    rw [splitChar, if_neg hcne, ih (fun h => ht (List.mem_cons_of_mem c h))]

theorem splitChar_append_cons (sep : Char) (t u : List Char) (ht : sep ∉ t) :
    splitChar sep (t ++ sep :: u) = t :: splitChar sep u := by
  induction t with
  | nil => simp [splitChar]
  | cons c t ih =>
    have hcne : ¬ (c = sep) := by
      intro h
      subst h
      exact ht (List.mem_cons_self c t)
    rw [List.cons_append, splitChar, if_neg hcne,
      ih (fun h => ht (List.mem_cons_of_mem c h))]

theorem splitChar_joinChar (sep : Char) (segs : List (List Char)) (hne : segs ≠ [])
    (hfree : ∀ t ∈ segs, sep ∉ t) :
    splitChar sep (joinChar sep segs) = segs := by
  induction segs with
  | nil => exact absurd rfl hne
  | cons t ts ih =>
    cases ts with
    | nil =>
      simp only [joinChar]
      exact splitChar_of_not_mem sep t (hfree t (List.mem_singleton_self t))
    | cons t2 ts2 =>
      rw [joinChar_cons sep t _ (by simp),
        splitChar_append_cons sep t _ (hfree t (List.mem_cons_self t _)),
        ih (by simp) (fun u hu => hfree u (List.mem_cons_of_mem t hu))]

/-- The effect of one `w+ -> w'+` replacement pass on a single `+`-free
segment followed by a `+`: the segment is rewritten iff it ends with `w`. -/
def stageSeg (w w' : List Char) (t : List Char) : List Char :=
  if w.isSuffixOf t then t.take (t.length - w.length) ++ w' else t

theorem stageSeg_pos (w w' t : List Char) (h : w <:+ t) :
    stageSeg w w' t = t.take (t.length - w.length) ++ w' := by
  rw [stageSeg, if_pos (List.isSuffixOf_iff_suffix.mpr h)]

theorem stageSeg_neg (w w' t : List Char) (h : ¬ w <:+ t) :
    stageSeg w w' t = t := by
  rw [stageSeg, if_neg (fun hc => h (List.isSuffixOf_iff_suffix.mp hc))]

/-- Apply a segment transformation to every segment except the last one
(the last segment is not followed by a separator). -/
def mapSegs (f : List Char → List Char) : List (List Char) → List (List Char)
  | [] => []
  | [t] => [t]
  | t :: ts => f t :: mapSegs f ts

theorem mapSegs_cons (f : List Char → List Char) (t : List Char)
    (ts : List (List Char)) (h : ts ≠ []) :
    mapSegs f (t :: ts) = f t :: mapSegs f ts := by
  cases ts with
  | nil => exact absurd rfl h
  | cons t2 ts2 => rfl

theorem mapSegs_eq_nil_iff (f : List Char → List Char) (segs : List (List Char)) :
    mapSegs f segs = [] ↔ segs = [] := by
  cases segs with
  | nil => simp [mapSegs]
  | cons t ts =>
    cases ts with
    | nil => simp [mapSegs]
    | cons t2 ts2 => simp [mapSegs]

theorem mapSegs_comp (f g : List Char → List Char) (segs : List (List Char)) :
    mapSegs g (mapSegs f segs) = mapSegs (fun t => g (f t)) segs := by
  induction segs with
  | nil => rfl
  | cons t ts ih =>
    cases ts with
    | nil => rfl
    | cons t2 ts2 =>
      rw [mapSegs_cons f t _ (by simp), mapSegs_cons (fun t => g (f t)) t _ (by simp),
        mapSegs_cons g (f t) _ (by rw [Ne, mapSegs_eq_nil_iff]; simp), ih]

theorem mapSegs_congr (f g : List Char → List Char) (segs : List (List Char))
    (h : ∀ t ∈ segs, f t = g t) :
    mapSegs f segs = mapSegs g segs := by
  induction segs with
  | nil => rfl
  | cons t ts ih =>
    cases ts with
    | nil => rfl
    | cons t2 ts2 =>
      rw [mapSegs_cons f t _ (by simp), mapSegs_cons g t _ (by simp),
        h t (List.mem_cons_self t _), ih (fun u hu => h u (List.mem_cons_of_mem t hu))]

theorem mem_mapSegs (f : List Char → List Char) (segs : List (List Char)) :
    ∀ u ∈ mapSegs f segs, u ∈ segs ∨ ∃ t ∈ segs, u = f t := by
  induction segs with
  | nil => simp [mapSegs]
  | cons t ts ih =>
    cases ts with
    | nil =>
      intro u hu
      rcases List.mem_singleton.mp hu with rfl
      exact Or.inl (List.mem_singleton_self u)
    | cons t2 ts2 =>
      intro u hu
      rw [mapSegs_cons f t _ (by simp)] at hu
      rcases List.mem_cons.mp hu with rfl | hu
      · exact Or.inr ⟨t, List.mem_cons_self t _, rfl⟩
      · rcases ih u hu with h | ⟨v, hv, rfl⟩
        · exact Or.inl (List.mem_cons_of_mem t h)
        · exact Or.inr ⟨v, List.mem_cons_of_mem t hv, rfl⟩

/-- If the pattern `w ++ [+]` matches at the head of `t ++ + :: rest` with
`+`-free `w` and `t`, then `w = t`. -/
theorem prefix_seg_eq (w t rest : List Char) (hwp : '+' ∉ w) (ht : '+' ∉ t)
    (h : (w ++ ['+']) <+: (t ++ '+' :: rest)) : w = t := by
  have hteq : t ++ '+' :: rest = (t ++ ['+']) ++ rest := by
    simp
  have h2 : (t ++ ['+']) <+: (t ++ '+' :: rest) := by
    rw [hteq]
    exact List.prefix_append _ _
  rcases Nat.lt_trichotomy w.length t.length with hlt | heq | hgt
  · exfalso
    have h1 : (w ++ ['+']) <+: t := by
      have h3 : t <+: t ++ '+' :: rest := List.prefix_append t _
      refine List.prefix_of_prefix_length_le h h3 ?_
      simp only [List.length_append, List.length_singleton]
      omega
    exact ht (h1.subset (by simp))
  · have h3 : (w ++ ['+']) <+: (t ++ ['+']) := by
      refine List.prefix_of_prefix_length_le h h2 ?_
      simp [heq]
    have h4 : w ++ ['+'] = t ++ ['+'] :=
      h3.eq_of_length (by simp [heq])
    exact List.append_cancel_right h4
  · exfalso
    have h4 : (t ++ ['+']) <+: (w ++ ['+']) := by
      refine List.prefix_of_prefix_length_le h2 h ?_
      simp only [List.length_append, List.length_singleton]
      omega
    have h1 : (t ++ ['+']) <+: w := by
      have h3 : w <+: w ++ ['+'] := List.prefix_append w _
      refine List.prefix_of_prefix_length_le h4 h3 ?_
      simp only [List.length_append, List.length_singleton]
      omega
    exact hwp (h1.subset (by simp))

theorem stageSeg_cons_of_ne (w w' : List Char) (c : Char) (t : List Char)
    (hne : w ≠ c :: t) :
    stageSeg w w' (c :: t) = c :: stageSeg w w' t := by
  by_cases h : w <:+ t
  · rw [stageSeg_pos w w' t h, stageSeg_pos w w' (c :: t) (h.trans (List.suffix_cons c t))]
    have hle : w.length ≤ t.length := h.length_le
    rw [List.length_cons]
    have heq : t.length + 1 - w.length = (t.length - w.length) + 1 := by omega
    rw [heq, List.take_succ_cons, List.cons_append]
  · have h2 : ¬ w <:+ c :: t := by
      intro hc
      rcases List.suffix_cons_iff.mp hc with h3 | h3
      · exact hne h3
      · exact h h3
    rw [stageSeg_neg w w' _ h2, stageSeg_neg w w' t h]

/-- The scan of one replacement pass across one `+`-free segment: the segment
is rewritten by `stageSeg` and scanning resumes after the separator. -/
theorem replaceAll_seg (w w' : List Char) (hw : w ≠ []) (hwp : '+' ∉ w) :
    ∀ (t rest : List Char), '+' ∉ t →
      replaceAll (w ++ ['+']) (w' ++ ['+']) (t ++ '+' :: rest) =
        stageSeg w w' t ++ '+' :: replaceAll (w ++ ['+']) (w' ++ ['+']) rest := by
  intro t
  induction t with
  | nil =>
    intro rest _
    rw [List.nil_append, replaceAll_cons]
    have hnp : ¬ ((w ++ ['+']) ≠ [] ∧ (w ++ ['+']).isPrefixOf ('+' :: rest) = true) := by
      rintro ⟨_, h2⟩
      have hpre := List.isPrefixOf_iff_prefix.mp h2
      cases w with
      | nil => exact hw rfl
      | cons a w2 =>
        rw [List.cons_append] at hpre
        have ha := (List.cons_prefix_cons.mp hpre).1
        exact hwp (ha ▸ List.mem_cons_self a w2)
    rw [if_neg hnp]
    have hsw : ¬ (w <:+ ([] : List Char)) := fun hc => hw (List.suffix_nil.mp hc)
    rw [stageSeg_neg w w' [] hsw, List.nil_append]
  | cons c t ih =>
    intro rest hct
    rw [List.cons_append, replaceAll_cons]
    by_cases hwt : w = c :: t
    · subst hwt
      have hinput : c :: (t ++ '+' :: rest) = ((c :: t) ++ ['+']) ++ rest := by
        simp
      have hcond : ((c :: t) ++ ['+']) ≠ [] ∧
          ((c :: t) ++ ['+']).isPrefixOf (c :: (t ++ '+' :: rest)) = true := by
        refine ⟨by simp, ?_⟩
        rw [List.isPrefixOf_iff_prefix, hinput]
        exact List.prefix_append _ _
      rw [if_pos hcond]
      have hdrop : (c :: (t ++ '+' :: rest)).drop ((c :: t) ++ ['+']).length = rest := by
        rw [hinput]
        exact List.drop_left _ _
      rw [hdrop]
      have hseg : stageSeg (c :: t) w' (c :: t) = w' := by
        rw [stageSeg_pos (c :: t) w' (c :: t) (List.suffix_refl _)]
        simp
      rw [hseg]
      simp
    · have hnp : ¬ ((w ++ ['+']) ≠ [] ∧
          (w ++ ['+']).isPrefixOf (c :: (t ++ '+' :: rest)) = true) := by
        rintro ⟨_, h2⟩
        have hpre := List.isPrefixOf_iff_prefix.mp h2
        refine hwt (prefix_seg_eq w (c :: t) rest hwp hct ?_)
        rw [List.cons_append]
        exact hpre
      rw [if_neg hnp, ih rest (fun h => hct (List.mem_cons_of_mem c h)),
        stageSeg_cons_of_ne w w' c t hwt, List.cons_append]

/-- One replacement pass in segment form, over an explicit segment list. -/
theorem replaceAll_joinChar (w w' : List Char) (hw : w ≠ []) (hwp : '+' ∉ w) :
    ∀ (segs : List (List Char)), (∀ t ∈ segs, '+' ∉ t) →
      replaceAll (w ++ ['+']) (w' ++ ['+']) (joinChar '+' segs) =
        joinChar '+' (mapSegs (stageSeg w w') segs) := by
  intro segs
  induction segs with
  | nil =>
    intro _
    simp only [joinChar, mapSegs]
    exact replaceAll_nil _ _
  | cons t ts ih =>
    intro hfree
    cases ts with
    | nil =>
      simp only [joinChar, mapSegs]
      exact replaceAll_of_not_mem (w ++ ['+']) (w' ++ ['+']) '+' (by simp) t
        (hfree t (List.mem_singleton_self t))
    | cons t2 ts2 =>
      rw [joinChar_cons '+' t _ (by simp),
        replaceAll_seg w w' hw hwp t _ (hfree t (List.mem_cons_self t _)),
        ih (fun u hu => hfree u (List.mem_cons_of_mem t hu)),
        mapSegs_cons (stageSeg w w') t _ (by simp),
        joinChar_cons '+' (stageSeg w w' t) _
          (by rw [Ne, mapSegs_eq_nil_iff]; simp)]

/-- One alias-rewriting stage of `normalizeKeybinding`:
`key.replace(/w\+/g, "w'+")` for a literal modifier word `w`. -/
def aliasStage (w w' : List Char) (s : List Char) : List Char :=
  replaceAll (w ++ ['+']) (w' ++ ['+']) s

theorem aliasStage_repr (w w' : List Char) (hw : w ≠ []) (hwp : '+' ∉ w)
    (s : List Char) :
    aliasStage w w' s = joinChar '+' (mapSegs (stageSeg w w') (splitChar '+' s)) := by
  conv_lhs => rw [aliasStage, ← joinChar_splitChar '+' s]
  exact replaceAll_joinChar w w' hw hwp (splitChar '+' s) (splitChar_not_mem '+' s)

theorem mem_stageSeg (w w' t : List Char) :
    ∀ c ∈ stageSeg w w' t, c ∈ t ∨ c ∈ w' := by
  intro c hc
  rw [stageSeg] at hc
  split at hc
  · rcases List.mem_append.mp hc with hc | hc
    · exact Or.inl (List.mem_of_mem_take hc)
    · exact Or.inr hc
  · exact Or.inl hc

theorem stageSeg_not_mem (w w' t : List Char) (ht : '+' ∉ t) (hw' : '+' ∉ w') :
    '+' ∉ stageSeg w w' t := by
  intro hc
  rcases mem_stageSeg w w' t '+' hc with h | h
  · exact ht h
  · exact hw' h

theorem mapSegs_stage_not_mem (w w' : List Char) (hw' : '+' ∉ w')
    (segs : List (List Char)) (hfree : ∀ t ∈ segs, '+' ∉ t) :
    ∀ u ∈ mapSegs (stageSeg w w') segs, '+' ∉ u := by
  intro u hu
  rcases mem_mapSegs (stageSeg w w') segs u hu with h | ⟨t, ht, rfl⟩
  · exact hfree u h
  · exact stageSeg_not_mem w w' t (hfree t ht) hw'

theorem splitChar_aliasStage (w w' : List Char) (hw : w ≠ []) (hwp : '+' ∉ w)
    (hw' : '+' ∉ w') (s : List Char) :
    splitChar '+' (aliasStage w w' s) = mapSegs (stageSeg w w') (splitChar '+' s) := by
  rw [aliasStage_repr w w' hw hwp s]
  exact splitChar_joinChar '+' _
    (by rw [Ne, mapSegs_eq_nil_iff]; exact splitChar_ne_nil '+' s)
    (mapSegs_stage_not_mem w w' hw' (splitChar '+' s) (splitChar_not_mem '+' s))

theorem char_toNat_ofNat_valid (n : Nat) (h : n.isValidChar) : (Char.ofNat n).toNat = n := by
  simp only [Char.ofNat, dif_pos h, Char.ofNatAux, Char.toNat]
  have h32 : n < 2 ^ 32 := by
    rcases h with h | ⟨_, h2⟩ <;> omega
  simp [UInt32.toNat]

theorem char_toLower_eq (c : Char) :
    c.toLower = if c.toNat ≥ 65 ∧ c.toNat ≤ 90 then Char.ofNat (c.toNat + 32) else c := rfl

theorem char_toLower_idem (c : Char) : c.toLower.toLower = c.toLower := by
  by_cases h : c.toNat ≥ 65 ∧ c.toNat ≤ 90
  · have hv : Nat.isValidChar (c.toNat + 32) := Or.inl (by omega)
    have h2 : (Char.ofNat (c.toNat + 32)).toNat = c.toNat + 32 := char_toNat_ofNat_valid _ hv
    rw [char_toLower_eq c, if_pos h, char_toLower_eq, h2, if_neg (by omega)]
  · rw [char_toLower_eq c, if_neg h, char_toLower_eq c, if_neg h]

/-- `key.toLowerCase()` on the character list. -/
def jsToLowerCase (s : List Char) : List Char := s.map Char.toLower

/-- `key.replace(/\s+/g, "")`: removing every whitespace character. -/
def stripWhitespace (s : List Char) : List Char := s.filter (fun c => !c.isWhitespace)

/-- Shallow embedding of `ConflictDetector.normalizeKeybinding`: lower-case,
strip whitespace, then rewrite the four modifier aliases, in source order
(`control+ -> ctrl+`, `option+ -> alt+`, `command+ -> cmd+`, `meta+ -> cmd+`). -/
def normalizeKeybinding (key : String) : String :=
  String.mk (aliasStage "meta".data "cmd".data
    (aliasStage "command".data "cmd".data
      (aliasStage "option".data "alt".data
        (aliasStage "control".data "ctrl".data
          (stripWhitespace (jsToLowerCase key.data))))))

/-- The combined effect of the four alias stages on one `+`-free segment. -/
def segNormalize (t : List Char) : List Char :=
  stageSeg "meta".data "cmd".data
    (stageSeg "command".data "cmd".data
      (stageSeg "option".data "alt".data
        (stageSeg "control".data "ctrl".data t)))

theorem fourStages_repr (s : List Char) :
    aliasStage "meta".data "cmd".data (aliasStage "command".data "cmd".data
      (aliasStage "option".data "alt".data (aliasStage "control".data "ctrl".data s)))
    = joinChar '+' (mapSegs segNormalize (splitChar '+' s)) := by
  rw [aliasStage_repr "meta".data "cmd".data (by decide) (by decide),
    splitChar_aliasStage "command".data "cmd".data (by decide) (by decide) (by decide),
    splitChar_aliasStage "option".data "alt".data (by decide) (by decide) (by decide),
    splitChar_aliasStage "control".data "ctrl".data (by decide) (by decide) (by decide),
    mapSegs_comp, mapSegs_comp, mapSegs_comp]
  rfl

theorem normalizeKeybinding_eval (x : String) :
    normalizeKeybinding x = String.mk (joinChar '+' (mapSegs segNormalize
      (splitChar '+' (stripWhitespace (jsToLowerCase x.data))))) :=
  congrArg String.mk (fourStages_repr _)

theorem mem_joinChar (sep : Char) :
    ∀ (segs : List (List Char)), ∀ c ∈ joinChar sep segs,
      c = sep ∨ ∃ t ∈ segs, c ∈ t := by
  intro segs
  induction segs with
  | nil => simp [joinChar]
  | cons t ts ih =>
    cases ts with
    | nil =>
      intro c hc
      exact Or.inr ⟨t, List.mem_singleton_self t, hc⟩
    | cons t2 ts2 =>
      intro c hc
      rw [joinChar_cons sep t _ (by simp)] at hc
      rcases List.mem_append.mp hc with hc | hc
      · exact Or.inr ⟨t, List.mem_cons_self t _, hc⟩
      · rcases List.mem_cons.mp hc with rfl | hc
        · exact Or.inl rfl
        · rcases ih c hc with h | ⟨u, hu, hcu⟩
          · exact Or.inl h
          · exact Or.inr ⟨u, List.mem_cons_of_mem t hu, hcu⟩

theorem mem_joinChar_of_mem (sep : Char) :
    ∀ (segs : List (List Char)) (t : List Char), t ∈ segs →
      ∀ c ∈ t, c ∈ joinChar sep segs := by
  intro segs
  induction segs with
  | nil => simp
  | cons u ts ih =>
    intro t ht c hc
    cases ts with
    | nil =>
      rcases List.mem_singleton.mp ht with rfl
      exact hc
    | cons t2 ts2 =>
      rw [joinChar_cons sep u _ (by simp)]
      rcases List.mem_cons.mp ht with rfl | ht
      · exact List.mem_append.mpr (Or.inl hc)
      · exact List.mem_append.mpr (Or.inr (List.mem_cons_of_mem sep (ih t ht c hc)))

theorem mem_segNormalize (t : List Char) :
    ∀ c ∈ segNormalize t,
      c ∈ t ∨ c ∈ "ctrl".data ∨ c ∈ "alt".data ∨ c ∈ "cmd".data := by
  intro c hc
  unfold segNormalize at hc
  rcases mem_stageSeg _ _ _ c hc with hc | hc
  · rcases mem_stageSeg _ _ _ c hc with hc | hc
    · rcases mem_stageSeg _ _ _ c hc with hc | hc
      · rcases mem_stageSeg _ _ _ c hc with hc | hc
        · exact Or.inl hc
        · exact Or.inr (Or.inl hc)
      · exact Or.inr (Or.inr (Or.inl hc))
    · exact Or.inr (Or.inr (Or.inr hc))
  · exact Or.inr (Or.inr (Or.inr hc))

theorem segNormalize_not_mem (t : List Char) (ht : '+' ∉ t) : '+' ∉ segNormalize t := by
  intro hc
  rcases mem_segNormalize t '+' hc with h | h | h | h
  · exact ht h
  · simp at h
  · simp at h
  · simp at h

theorem suffix_of_suffix_length_le {l₁ l₂ l₃ : List Char}
    (h1 : l₁ <:+ l₃) (h2 : l₂ <:+ l₃) (hl : l₁.length ≤ l₂.length) : l₁ <:+ l₂ := by
  rw [← List.reverse_prefix] at h1 h2 ⊢
  exact List.prefix_of_prefix_length_le h1 h2 (by simpa using hl)

theorem not_suffix_append (q y : List Char) (h1 : ¬ y <:+ q) (h2 : ¬ q <:+ y)
    (x : List Char) : ¬ q <:+ x ++ y := by
  intro h
  have hy : y <:+ x ++ y := List.suffix_append x y
  rcases Nat.le_total q.length y.length with hle | hle
  · exact h2 (suffix_of_suffix_length_le h hy hle)
  · exact h1 (suffix_of_suffix_length_le hy h hle)

theorem no_suffix_ctrl (x : List Char) :
    (¬ "control".data <:+ x ++ "ctrl".data) ∧ (¬ "option".data <:+ x ++ "ctrl".data) ∧
    (¬ "command".data <:+ x ++ "ctrl".data) ∧ (¬ "meta".data <:+ x ++ "ctrl".data) :=
  ⟨not_suffix_append _ _ (by decide) (by decide) x,
   not_suffix_append _ _ (by decide) (by decide) x,
   not_suffix_append _ _ (by decide) (by decide) x,
   not_suffix_append _ _ (by decide) (by decide) x⟩

theorem no_suffix_alt (x : List Char) :
    (¬ "control".data <:+ x ++ "alt".data) ∧ (¬ "option".data <:+ x ++ "alt".data) ∧
    (¬ "command".data <:+ x ++ "alt".data) ∧ (¬ "meta".data <:+ x ++ "alt".data) :=
  ⟨not_suffix_append _ _ (by decide) (by decide) x,
   not_suffix_append _ _ (by decide) (by decide) x,
   not_suffix_append _ _ (by decide) (by decide) x,
   not_suffix_append _ _ (by decide) (by decide) x⟩

theorem no_suffix_cmd (x : List Char) :
    (¬ "control".data <:+ x ++ "cmd".data) ∧ (¬ "option".data <:+ x ++ "cmd".data) ∧
    (¬ "command".data <:+ x ++ "cmd".data) ∧ (¬ "meta".data <:+ x ++ "cmd".data) :=
  ⟨not_suffix_append _ _ (by decide) (by decide) x,
   not_suffix_append _ _ (by decide) (by decide) x,
   not_suffix_append _ _ (by decide) (by decide) x,
   not_suffix_append _ _ (by decide) (by decide) x⟩

theorem segNormalize_of_no_suffix (t : List Char)
    (h1 : ¬ "control".data <:+ t) (h2 : ¬ "option".data <:+ t)
    (h3 : ¬ "command".data <:+ t) (h4 : ¬ "meta".data <:+ t) :
    segNormalize t = t := by
  unfold segNormalize
  rw [stageSeg_neg _ _ t h1, stageSeg_neg _ _ t h2, stageSeg_neg _ _ t h3,
    stageSeg_neg _ _ t h4]

/-- One alias stage can rewrite a segment at most once per normalization pass,
and the rewritten segment ends in `ctrl`, `alt` or `cmd`, which no later (or
repeated) alias pattern can match; hence the per-segment normalization is
idempotent. -/
theorem segNormalize_idem (t : List Char) : segNormalize (segNormalize t) = segNormalize t := by
  by_cases h1 : "control".data <:+ t
  · have e1 := stageSeg_pos "control".data "ctrl".data t h1
    set x := t.take (t.length - "control".data.length) with hx
    have hfacts := no_suffix_ctrl x
    have eG : segNormalize t = x ++ "ctrl".data := by
      unfold segNormalize
      rw [e1, stageSeg_neg _ _ _ hfacts.2.1, stageSeg_neg _ _ _ hfacts.2.2.1,
        stageSeg_neg _ _ _ hfacts.2.2.2]
    rw [eG, segNormalize_of_no_suffix _ hfacts.1 hfacts.2.1 hfacts.2.2.1 hfacts.2.2.2]
  · have e1 : stageSeg "control".data "ctrl".data t = t := stageSeg_neg _ _ t h1
    by_cases h2 : "option".data <:+ t
    · have e2 := stageSeg_pos "option".data "alt".data t h2
      set x := t.take (t.length - "option".data.length) with hx
      have hfacts := no_suffix_alt x
      have eG : segNormalize t = x ++ "alt".data := by
        unfold segNormalize
        rw [e1, e2, stageSeg_neg _ _ _ hfacts.2.2.1, stageSeg_neg _ _ _ hfacts.2.2.2]
      rw [eG, segNormalize_of_no_suffix _ hfacts.1 hfacts.2.1 hfacts.2.2.1 hfacts.2.2.2]
    · have e2 : stageSeg "option".data "alt".data t = t := stageSeg_neg _ _ t h2
      by_cases h3 : "command".data <:+ t
      · have e3 := stageSeg_pos "command".data "cmd".data t h3
        set x := t.take (t.length - "command".data.length) with hx
        have hfacts := no_suffix_cmd x
        have eG : segNormalize t = x ++ "cmd".data := by
          unfold segNormalize
          rw [e1, e2, e3, stageSeg_neg _ _ _ hfacts.2.2.2]
        rw [eG, segNormalize_of_no_suffix _ hfacts.1 hfacts.2.1 hfacts.2.2.1 hfacts.2.2.2]
      · have e3 : stageSeg "command".data "cmd".data t = t := stageSeg_neg _ _ t h3
        by_cases h4 : "meta".data <:+ t
        · have e4 := stageSeg_pos "meta".data "cmd".data t h4
          set x := t.take (t.length - "meta".data.length) with hx
          have hfacts := no_suffix_cmd x
          have eG : segNormalize t = x ++ "cmd".data := by
            unfold segNormalize
            rw [e1, e2, e3, e4]
          rw [eG, segNormalize_of_no_suffix _ hfacts.1 hfacts.2.1 hfacts.2.2.1 hfacts.2.2.2]
        · have eG : segNormalize t = t := segNormalize_of_no_suffix t h1 h2 h3 h4
          rw [eG, eG]

theorem list_map_eq_self {f : Char → Char} :
    ∀ (l : List Char), (∀ c ∈ l, f c = c) → l.map f = l := by
  intro l
  induction l with
  | nil => intro _; rfl
  | cons c l ih =>
    intro h
    rw [List.map_cons, h c (List.mem_cons_self c l),
      ih (fun u hu => h u (List.mem_cons_of_mem c hu))]

theorem mem_stripWhitespace_jsToLowerCase (s : List Char) :
    ∀ c ∈ stripWhitespace (jsToLowerCase s), c.toLower = c ∧ c.isWhitespace = false := by
  intro c hc
  rcases List.mem_filter.mp hc with ⟨hmem, hws⟩
  rcases List.mem_map.mp hmem with ⟨c0, _, rfl⟩
  exact ⟨char_toLower_idem c0, by simpa using hws⟩

theorem joinChar_mapSegs_fixed (segs : List (List Char))
    (hfix : ∀ t ∈ segs, ∀ c ∈ t, c.toLower = c ∧ c.isWhitespace = false) :
    ∀ c ∈ joinChar '+' (mapSegs segNormalize segs),
      c.toLower = c ∧ c.isWhitespace = false := by
  intro c hc
  rcases mem_joinChar '+' _ c hc with rfl | ⟨u, hu, hcu⟩
  · exact ⟨by decide, by decide⟩
  · rcases mem_mapSegs segNormalize _ u hu with hu' | ⟨t, ht, rfl⟩
    · exact hfix u hu' c hcu
    · rcases mem_segNormalize t c hcu with h | h | h | h
      · exact hfix t ht c h
      · fin_cases h <;> exact ⟨by decide, by decide⟩
      · fin_cases h <;> exact ⟨by decide, by decide⟩
      · fin_cases h <;> exact ⟨by decide, by decide⟩

/-- Applying the normalization pipeline to an already-normalized value (in its
segment form) returns it unchanged. -/
theorem normalizeKeybinding_fixed_point (segs : List (List Char)) (hne : segs ≠ [])
    (hfree : ∀ t ∈ segs, '+' ∉ t)
    (hfix : ∀ t ∈ segs, ∀ c ∈ t, c.toLower = c ∧ c.isWhitespace = false) :
    normalizeKeybinding (String.mk (joinChar '+' (mapSegs segNormalize segs)))
      = String.mk (joinChar '+' (mapSegs segNormalize segs)) := by
  have hofix := joinChar_mapSegs_fixed segs hfix
  have hdata : (String.mk (joinChar '+' (mapSegs segNormalize segs))).data
      = joinChar '+' (mapSegs segNormalize segs) := rfl
  have hlower : jsToLowerCase (joinChar '+' (mapSegs segNormalize segs))
      = joinChar '+' (mapSegs segNormalize segs) :=
    list_map_eq_self _ (fun c hc => (hofix c hc).1)
  have hstrip : stripWhitespace (joinChar '+' (mapSegs segNormalize segs))
      = joinChar '+' (mapSegs segNormalize segs) :=
    List.filter_eq_self.mpr (fun c hc => by simp [(hofix c hc).2])
  have hsplit : splitChar '+' (joinChar '+' (mapSegs segNormalize segs))
      = mapSegs segNormalize segs := by
    refine splitChar_joinChar '+' _ ?_ ?_
    · rw [Ne, mapSegs_eq_nil_iff]
      exact hne
    · intro u hu
      rcases mem_mapSegs segNormalize _ u hu with hu' | ⟨t, ht, rfl⟩
      · exact hfree u hu'
      · exact segNormalize_not_mem t (hfree t ht)
  rw [normalizeKeybinding_eval, hdata, hlower, hstrip, hsplit, mapSegs_comp,
    mapSegs_congr _ _ _ (fun t _ => segNormalize_idem t)]

/-- Claim C3.  Keybinding normalization is idempotent on every input string,
and on the concrete alias example it produces the canonical lower-case,
whitespace-free, alias-collapsed form. -/
theorem normalizeKeybinding_idempotent :
    (∀ x : String, normalizeKeybinding (normalizeKeybinding x) = normalizeKeybinding x) ∧
    normalizeKeybinding "Control+Shift+ K" = "ctrl+shift+k" := by
  constructor
  · intro x
    rw [normalizeKeybinding_eval x]
    refine normalizeKeybinding_fixed_point _ (splitChar_ne_nil '+' _)
      (splitChar_not_mem '+' _) ?_
    intro t ht c hc
    have hcs : c ∈ joinChar '+' (splitChar '+' (stripWhitespace (jsToLowerCase x.data))) :=
      mem_joinChar_of_mem '+' _ t ht c hc
    rw [joinChar_splitChar] at hcs
    exact mem_stripWhitespace_jsToLowerCase x.data c hcs
  · rw [normalizeKeybinding_eval]
    set_option maxHeartbeats 2000000 in decide

/-! ### Keybinding Suggestion Engine (`suggestAlternativeKeybindings`) -/

/-- The fixed modifier combinations, in source order. -/
def suggestionModifiers : List String :=
  ["ctrl+shift", "ctrl+alt", "alt+shift", "ctrl+shift+alt"]

/-- The fixed key list: 12 function keys, 26 letters, 10 digits. -/
def suggestionKeys : List String :=
  ["f1", "f2", "f3", "f4", "f5", "f6", "f7", "f8", "f9", "f10", "f11", "f12",
   "a", "b", "c", "d", "e", "f", "g", "h", "i", "j", "k", "l", "m",
   "n", "o", "p", "q", "r", "s", "t", "u", "v", "w", "x", "y", "z",
   "1", "2", "3", "4", "5", "6", "7", "8", "9", "0"]

/-- The candidate space in its fixed nested enumeration order: modifiers
outer, keys inner, candidate text `<modifier>+<key>`. -/
def suggestionCandidates : List String :=
  suggestionModifiers.flatMap (fun m => suggestionKeys.map (fun k => m ++ "+" ++ k))

/-- The enumeration loop of `suggestAlternativeKeybindings`: skip candidates
whose normalization is in the used set, append the others, and return as soon
as 10 suggestions have been collected. -/
def suggestLoop (used : List String) : List String → List String → List String
  | [], acc => acc
  | c :: cs, acc =>
    if used.contains (normalizeKeybinding c) then
      suggestLoop used cs acc
    else if 10 ≤ (acc ++ [c]).length then
      acc ++ [c]
    else
      suggestLoop used cs (acc ++ [c])

/-- Shallow embedding of `ConflictDetector.suggestAlternativeKeybindings`,
parameterised by the used-set of normalized keybindings gathered from the
snapshot.  The `currentBinding` argument is accepted (as in the source) but
never read by the enumeration. -/
def suggestAlternativeKeybindings (used : List String) (currentBinding : String) :
    List String :=
  suggestLoop used suggestionCandidates []

theorem suggestLoop_eq (used : List String) :
    ∀ (cs acc : List String), acc.length < 10 →
      suggestLoop used cs acc =
        acc ++ (cs.filter (fun c => !(used.contains (normalizeKeybinding c)))).take
          (10 - acc.length) := by
  intro cs
  induction cs with
  | nil => intro acc _; simp [suggestLoop]
  | cons c cs ih =>
    intro acc hacc
    by_cases hc : used.contains (normalizeKeybinding c) = true
    · have hmem : normalizeKeybinding c ∈ used := List.mem_of_elem_eq_true hc
      rw [suggestLoop, if_pos hc, ih acc hacc, List.filter_cons]
      simp [hmem]
    · have hnmem : normalizeKeybinding c ∉ used :=
        fun h => hc (List.elem_eq_true_of_mem h)
      have hc' : used.contains (normalizeKeybinding c) = false :=
        Bool.eq_false_iff.mpr hc
      rw [suggestLoop, if_neg (by rw [hc']; exact Bool.false_ne_true), List.filter_cons]
      by_cases hlen : 10 ≤ (acc ++ [c]).length
      · rw [if_pos hlen]
        have h9 : acc.length = 9 := by
          simp only [List.length_append, List.length_singleton] at hlen
          omega
        rw [h9]
        simp [hnmem]
      · rw [if_neg hlen]
        have hlt : (acc ++ [c]).length < 10 := by omega
        rw [ih (acc ++ [c]) hlt]
        have harith : 10 - acc.length = (10 - (acc ++ [c]).length) + 1 := by
          simp only [List.length_append, List.length_singleton]
          omega
        rw [harith]
        simp [hnmem, List.take_succ_cons]

/-- Claim C5.  The suggestion engine returns exactly the first up-to-10
candidates of the fixed 192-candidate enumeration that are not in the used
set; it never returns a used binding; it returns the empty list when every
candidate is used; and its output depends only on the used set (the
`currentBinding` argument is ignored). -/
theorem suggestKeybindings_spec (used : List String) (currentBinding : String) :
    suggestAlternativeKeybindings used currentBinding =
      (suggestionCandidates.filter
        (fun c => !(used.contains (normalizeKeybinding c)))).take 10 ∧
    suggestionCandidates.length = 192 ∧
    (∀ s ∈ suggestAlternativeKeybindings used currentBinding,
        used.contains (normalizeKeybinding s) = false) ∧
    ((∀ c ∈ suggestionCandidates, used.contains (normalizeKeybinding c) = true) →
        suggestAlternativeKeybindings used currentBinding = []) := by
  have hmain : suggestAlternativeKeybindings used currentBinding =
      (suggestionCandidates.filter
        (fun c => !(used.contains (normalizeKeybinding c)))).take 10 := by
    rw [suggestAlternativeKeybindings, suggestLoop_eq used suggestionCandidates [] (by simp)]
    simp
  refine ⟨hmain, by set_option maxRecDepth 4000 in decide, ?_, ?_⟩
  · intro s hs
    rw [hmain] at hs
    have hsf := List.mem_of_mem_take hs
    have := (List.mem_filter.mp hsf).2
    simpa using this
  · intro hall
    rw [hmain]
    have hnil : suggestionCandidates.filter
        (fun c => !(used.contains (normalizeKeybinding c))) = [] := by
      rw [List.filter_eq_nil_iff]
      intro c hc
      rw [hall c hc]
      simp
    rw [hnil, List.take_nil]

theorem suggestKeybindings_spec_witness :
    suggestAlternativeKeybindings
      (suggestionCandidates.map normalizeKeybinding) "ctrl+shift+p" = [] := by
  refine (suggestKeybindings_spec
      (suggestionCandidates.map normalizeKeybinding) "ctrl+shift+p").2.2.2 ?_
  intro c hc
  exact List.elem_eq_true_of_mem (List.mem_map.mpr ⟨c, hc, rfl⟩)

/-! ### Single-conflict remediation (`fixMissingActivationEvents`)

The UI and host side effects the method can perform are reified as an
explicit effect trace; the user's reaction to the information message is an
input (`selection`). -/

/-- Host-mediated side effects of the single-conflict remediation path. -/
inductive UIEffect where
  | showInformationMessage (msg : String) (items : List String)
  | clipboardWriteText (text : String)
  | workspaceFileEdit (uri : String) (newText : String)
deriving DecidableEq

/-- Shallow embedding of `ConflictDetector.fixMissingActivationEvents`: build
the `onCommand:<id>` text, show the manual-fix message, copy the text to the
clipboard when the user picks the button, and return `true`.  The effect
trace records everything the method asks the host to do. -/
def fixMissingActivationEvents (conflict : Conflict) (selection : Option String) :
    List UIEffect × Bool :=
  let newEvent := "onCommand:" ++ conflict.id
  let message := "To fix this, add \"" ++ newEvent
    ++ "\" to \x27activationEvents\x27 in package.json."
  (([UIEffect.showInformationMessage ("Manual Fix Required: " ++ message)
      ["Copy to Clipboard"]]
    ++ (if selection = some "Copy to Clipboard" then
          [UIEffect.clipboardWriteText newEvent]
        else [])),
   true)

/-- Claim C7.  The single-conflict remediation path never performs a file
edit for any conflict/selection; the only clipboard write it can perform is
the exact `onCommand:<conflict id>` text and happens only on the user's
confirmation; and the call reports success. -/
theorem fixMissingActivation_clipboard_only (conflict : Conflict) (selection : Option String) :
    (∀ eff ∈ (fixMissingActivationEvents conflict selection).1,
        ∀ uri newText : String, eff ≠ UIEffect.workspaceFileEdit uri newText) ∧
    (∀ text : String,
        UIEffect.clipboardWriteText text ∈ (fixMissingActivationEvents conflict selection).1 →
          text = "onCommand:" ++ conflict.id ∧ selection = some "Copy to Clipboard") ∧
    (fixMissingActivationEvents conflict selection).2 = true := by
  refine ⟨?_, ?_, rfl⟩
  · intro eff heff uri newText
    simp only [fixMissingActivationEvents, List.singleton_append] at heff
    rcases List.mem_cons.mp heff with rfl | heff
    · intro hcontra
      exact UIEffect.noConfusion hcontra
    · split at heff
      · rcases List.mem_singleton.mp heff with rfl
        intro hcontra
        exact UIEffect.noConfusion hcontra
      · simp at heff
  · intro text htext
    simp only [fixMissingActivationEvents, List.singleton_append] at htext
    rcases List.mem_cons.mp htext with heq | htext
    · exact absurd heq (by intro hcontra; exact UIEffect.noConfusion hcontra)
    · split at htext
      · rename_i hsel
        rcases List.mem_singleton.mp htext with heq
        have : text = "onCommand:" ++ conflict.id := by
          injection heq
        exact ⟨this, hsel⟩
      · simp at htext

theorem fixMissingActivation_clipboard_only_witness :
    ∀ text : String,
      UIEffect.clipboardWriteText text ∈
        (fixMissingActivationEvents
          { type := ConflictType.registration, id := "foo.bar", sources := ["Sample"],
            severity := Severity.warning, description := "d", extensionId := none }
          (some "Copy to Clipboard")).1 →
        text = "onCommand:foo.bar" :=
  fun text htext =>
    (fixMissingActivation_clipboard_only
      { type := ConflictType.registration, id := "foo.bar", sources := ["Sample"],
        severity := Severity.warning, description := "d", extensionId := none }
      (some "Copy to Clipboard")).2.1 text htext |>.1

/-! ### Log Monitor: bounded tail read (`LogMonitor.readFile`) -/

/-- The truncation marker prepended to a truncated tail read. -/
def truncationMarker : List Char := "...[TRUNCATED]...\n".data

/-- The 50 KiB read bound (`MAX_BYTES = 50 * 1024`). -/
def MAX_BYTES : Nat := 50 * 1024

/-- Shallow embedding of `LogMonitor.readFile`: return the whole content when
its size is at most `MAX_BYTES`, otherwise the trailing `MAX_BYTES` window
(the read at offset `size - MAX_BYTES`) behind the truncation marker.  File
content is modelled as its character/byte list. -/
def readFile (content : List Char) : List Char :=
  if content.length ≤ MAX_BYTES then content
  else truncationMarker ++ content.drop (content.length - MAX_BYTES)

/-- Claim C8.  The tail read returns the whole file when the size is within
the 50 KiB bound, otherwise the marker followed by exactly the trailing
50 KiB window of the file; in all cases the result never exceeds 50 KiB plus
the marker length. -/
theorem readFile_tail_spec (content : List Char) :
    (readFile content).length ≤ MAX_BYTES + truncationMarker.length ∧
    (content.length ≤ MAX_BYTES → readFile content = content) ∧
    (MAX_BYTES < content.length →
      truncationMarker <+: readFile content ∧
      (readFile content).drop truncationMarker.length <:+ content ∧
      ((readFile content).drop truncationMarker.length).length = MAX_BYTES) := by
  refine ⟨?_, ?_, ?_⟩
  · rw [readFile]
    split
    · rename_i h
      omega
    · rename_i h
      simp only [List.length_append, List.length_drop]
      omega
  · intro h
    rw [readFile, if_pos h]
  · intro h
    rw [readFile, if_neg (by omega)]
    refine ⟨List.prefix_append _ _, ?_, ?_⟩
    · rw [List.drop_left]
      exact List.drop_suffix _ _
    · rw [List.drop_left, List.length_drop]
      omega

theorem readFile_tail_spec_witness :
    MAX_BYTES < (List.replicate 51201 'a').length ∧
    truncationMarker <+: readFile (List.replicate 51201 'a') ∧
    ((readFile (List.replicate 51201 'a')).drop truncationMarker.length).length
      = MAX_BYTES := by
  have hlen : MAX_BYTES < (List.replicate 51201 'a').length := by
    rw [List.length_replicate]
    decide
  have h := (readFile_tail_spec (List.replicate 51201 'a')).2.2 hlen
  exact ⟨hlen, h.1, h.2.2⟩

/-! ### Log Monitor: structured parsing (`LogMonitor.parseLogContent`) -/

/-- Substring test on character lists (JavaScript `String.includes`). -/
def listIncludes (needle : List Char) : List Char → Bool
  | [] => needle.isEmpty
  | c :: s => needle.isPrefixOf (c :: s) || listIncludes needle s

/-- Substring test on strings (JavaScript `String.includes`). -/
def strIncludes (needle hay : String) : Bool := listIncludes needle.data hay.data

theorem listIncludes_iff (needle : List Char) :
    ∀ hay : List Char, listIncludes needle hay = true ↔ needle <:+: hay := by
  intro hay
  induction hay with
  | nil => simp [listIncludes, List.isEmpty_iff]
  | cons c s ih =>
    simp only [listIncludes, Bool.or_eq_true, List.isPrefixOf_iff_prefix, ih]
    rw [List.infix_cons_iff]

/-- Log levels of `LogEntry`. -/
inductive LogLevel where
  | info
  | warn
  | error
  | debug
deriving DecidableEq

/-- A parsed structured log entry. -/
structure LogEntry where
  timestamp : String
  level : LogLevel
  message : String
  source : String
deriving DecidableEq

/-- Shallow embedding of `LogMonitor.normalizeLevel`: case-insensitive
substring matching with priority error > warn > debug/trace > info. -/
def normalizeLevel (level : String) : LogLevel :=
  if strIncludes "err" (String.mk (jsToLowerCase level.data)) then LogLevel.error
  else if strIncludes "warn" (String.mk (jsToLowerCase level.data)) then LogLevel.warn
  else if strIncludes "debug" (String.mk (jsToLowerCase level.data))
      || strIncludes "trace" (String.mk (jsToLowerCase level.data)) then LogLevel.debug
  else LogLevel.info

/-- Find the earliest occurrence of the literal separator in the input and
split there: the returned pair is (text before the separator, text after it).
This realises one lazy `(.*?)` capture followed by its literal separator. -/
def splitFirst (sep : List Char) : List Char → Option (List Char × List Char)
  | [] => none
  | c :: s =>
    if sep.isPrefixOf (c :: s) then some ([], (c :: s).drop sep.length)
    else
      match splitFirst sep s with
      | some (a, b) => some (c :: a, b)
      | none => none

/-- Match one line against `^\[(.*?)\] \[(.*?)\] \[(.*?)\] (.*)$`.  Each lazy
group extends to the earliest following occurrence of its literal separator,
and no backtracking is needed: a later choice for an earlier group only
shrinks the text searched for the remaining separators, so it can never turn
a failing match into a successful one. -/
def matchLogLine (line : List Char) :
    Option (List Char × List Char × List Char × List Char) :=
  match line with
  | '[' :: rest =>
    match splitFirst "] [".data rest with
    | none => none
    | some (a, r1) =>
      match splitFirst "] [".data r1 with
      | none => none
      | some (b, r2) =>
        match splitFirst "] ".data r2 with
        | none => none
        | some (c, r3) => some (a, b, c, r3)
  | _ => none

/-- JavaScript `line.trim()`: strip leading and trailing whitespace. -/
def trimWs (s : List Char) : List Char :=
  ((s.dropWhile Char.isWhitespace).reverse.dropWhile Char.isWhitespace).reverse

/-- Append a continuation line (newline-joined) to the message of the last
entry; with no entries this is the identity (the line is dropped). -/
def appendToLast : List LogEntry → String → List LogEntry
  | [], _ => []
  | [e], line => [{ e with message := e.message ++ "\n" ++ line }]
  | e :: es, line => e :: appendToLast es line

/-- The entry built from a matched header line: the channel token is used as
the source unless it is exactly `exthost`, in which case the caller-supplied
source id is used. -/
def mkEntry (source : String) (ts ch lvl msg : List Char) : LogEntry :=
  { timestamp := String.mk ts
    source := if String.mk ch = "exthost" then source else String.mk ch
    level := normalizeLevel (String.mk lvl)
    message := String.mk msg }

/-- One line of the parsing loop: a matching line starts a new entry; a
non-matching, non-blank line is appended to the previous entry's message; a
non-matching line with no prior entry is dropped. -/
def parseStep (source : String) (entries : List LogEntry) (line : List Char) :
    List LogEntry :=
  match matchLogLine line with
  | some (ts, ch, lvl, msg) => entries ++ [mkEntry source ts ch lvl msg]
  | none =>
    if trimWs line ≠ [] ∧ entries ≠ [] then appendToLast entries (String.mk line)
    else entries

/-- The parsing loop over a list of lines. -/
def parseFold (source : String) (lines : List (List Char)) : List LogEntry :=
  lines.foldl (parseStep source) []

/-- Shallow embedding of `LogMonitor.parseLogContent`: split the content on
newlines and run the parsing loop. -/
def parseLogContent (content : String) (source : String) : List LogEntry :=
  parseFold source (splitChar '\n' content.data)

/-- Shallow embedding of `LogMonitor.getLogs` past the directory listing: for
each log file content, tail-read it and parse it with the requested extension
id as source, then sort all entries by timestamp (string comparison). -/
def getLogs (fileContents : List (List Char)) (extensionId : String) : List LogEntry :=
  ((fileContents.map (fun content =>
      parseLogContent (String.mk (readFile content)) extensionId)).flatten).mergeSort
    (fun a b => decide (a.timestamp ≤ b.timestamp))

theorem appendToLast_concat (es : List LogEntry) (e : LogEntry) (line : String) :
    appendToLast (es ++ [e]) line =
      es ++ [{ e with message := e.message ++ "\n" ++ line }] := by
  induction es with
  | nil => rfl
  | cons f es ih =>
    cases es with
    | nil => rfl
    | cons g es2 =>
      simp only [List.cons_append, appendToLast]
      show f :: appendToLast (g :: es2 ++ [e]) line = _
      rw [ih]
      rfl

theorem parseFold_append_match (source : String) (pre : List (List Char))
    (line : List Char) (ts ch lvl msg : List Char)
    (hmatch : matchLogLine line = some (ts, ch, lvl, msg)) :
    parseFold source (pre ++ [line]) =
      parseFold source pre ++ [mkEntry source ts ch lvl msg] := by
  rw [parseFold, List.foldl_append]
  simp [parseStep, hmatch, parseFold]

/-- The two-header, one-continuation example of the spec. -/
def logExampleContent : String :=
  "[2024-01-01T00:00:00.000] [exthost] [error] Something failed\n    at foo.js:10\n[2024-01-01T00:00:00.100] [exthost] [info] Recovered"

/-- Claim C9.  A matching line appends a fresh entry; a non-matching,
non-blank line is appended (newline-joined) to the last entry's message; a
non-matching line with no prior entry (or a blank line) changes nothing; and
the concrete two-header input parses to exactly two entries with the first
message `Something failed\n    at foo.js:10`. -/
theorem parseLogContent_spec :
    (∀ (source : String) (pre : List (List Char)) (line : List Char)
        (ts ch lvl msg : List Char),
        matchLogLine line = some (ts, ch, lvl, msg) →
        parseFold source (pre ++ [line]) =
          parseFold source pre ++ [mkEntry source ts ch lvl msg]) ∧
    (∀ (source : String) (pre : List (List Char)) (line : List Char),
        matchLogLine line = none → trimWs line ≠ [] → parseFold source pre ≠ [] →
        ∃ es e, parseFold source pre = es ++ [e] ∧
          parseFold source (pre ++ [line]) =
            es ++ [{ e with message := e.message ++ "\n" ++ String.mk line }]) ∧
    (∀ (source : String) (pre : List (List Char)) (line : List Char),
        matchLogLine line = none →
        (trimWs line = [] ∨ parseFold source pre = []) →
        parseFold source (pre ++ [line]) = parseFold source pre) ∧
    (parseLogContent logExampleContent "my.ext" =
      [ { timestamp := "2024-01-01T00:00:00.000", level := LogLevel.error,
          message := "Something failed\n    at foo.js:10", source := "my.ext" },
        { timestamp := "2024-01-01T00:00:00.100", level := LogLevel.info,
          message := "Recovered", source := "my.ext" } ]) := by
  refine ⟨parseFold_append_match, ?_, ?_, ?_⟩
  · intro source pre line hmatch htrim hne
    rcases (parseFold source pre).eq_nil_or_concat with hnil | ⟨es, e, hsplit⟩
    · exact absurd hnil hne
    · refine ⟨es, e, by rw [hsplit, List.concat_eq_append], ?_⟩
      rw [parseFold, List.foldl_append]
      have hpf : List.foldl (parseStep source) [] pre = es ++ [e] := by
        rw [← parseFold, hsplit, List.concat_eq_append]
      rw [hpf]
      simp only [List.foldl_cons, List.foldl_nil, parseStep, hmatch]
      rw [if_pos ⟨htrim, by simp⟩]
      exact appendToLast_concat es e (String.mk line)
  · intro source pre line hmatch hcond
    rw [parseFold, List.foldl_append]
    have hpf : List.foldl (parseStep source) [] pre = parseFold source pre := rfl
    rw [hpf]
    simp only [List.foldl_cons, List.foldl_nil, parseStep, hmatch]
    rcases hcond with h | h
    · rw [if_neg (by simp [h])]
    · rw [h]
      rw [if_neg (by simp)]
  · set_option maxHeartbeats 2000000 in decide

theorem parseLogContent_spec_witness :
    parseFold "my.ext" ([] ++ ["[t1] [exthost] [warn] slow".data]) =
      parseFold "my.ext" [] ++
        [mkEntry "my.ext" "t1".data "exthost".data "warn".data "slow".data] :=
  parseLogContent_spec.1 "my.ext" [] "[t1] [exthost] [warn] slow".data
    "t1".data "exthost".data "warn".data "slow".data (by decide)

/-- Claim C10.  The source field of a parsed entry equals the caller-supplied
source id exactly when the channel token is `exthost`, and equals the channel
token itself otherwise; hence `getLogs` can return entries whose source
differs from the requested extension id. -/
theorem logSource_channel_spec :
    (∀ (source : String) (ts ch lvl msg : List Char),
        (mkEntry source ts ch lvl msg).source =
          (if String.mk ch = "exthost" then source else String.mk ch)) ∧
    (∀ (source : String) (pre : List (List Char)) (line : List Char)
        (ts ch lvl msg : List Char),
        matchLogLine line = some (ts, ch, lvl, msg) →
        (parseFold source (pre ++ [line])).getLast? =
          some (mkEntry source ts ch lvl msg)) ∧
    (∃ e ∈ getLogs ["[t1] [renderer] [info] hi".data] "my.ext",
        e.source = "renderer" ∧ e.source ≠ "my.ext") := by
  refine ⟨fun source ts ch lvl msg => rfl, ?_, ?_⟩
  · intro source pre line ts ch lvl msg hmatch
    rw [parseFold_append_match source pre line ts ch lvl msg hmatch]
    rw [List.getLast?_concat]
  · have hmem : mkEntry "my.ext" "t1".data "renderer".data "info".data "hi".data ∈
        ((["[t1] [renderer] [info] hi".data].map (fun content =>
          parseLogContent (String.mk (readFile content)) "my.ext")).flatten) := by
      set_option maxHeartbeats 1000000 in decide
    refine ⟨mkEntry "my.ext" "t1".data "renderer".data "info".data "hi".data, ?_,
      by decide, by decide⟩
    unfold getLogs
    exact ((List.mergeSort_perm _ _).mem_iff).mpr hmem

theorem logSource_channel_spec_witness :
    (parseFold "my.ext" ([] ++ ["[t1] [renderer] [info] hi".data])).getLast? =
      some (mkEntry "my.ext" "t1".data "renderer".data "info".data "hi".data) :=
  logSource_channel_spec.2.1 "my.ext" [] "[t1] [renderer] [info] hi".data
    "t1".data "renderer".data "info".data "hi".data (by decide)

/-! ### Batch remediation (`fixAllMissingActivationEvents`)

The batch path detects registration mismatches, keeps the conflicts whose
description marks a missing `onCommand:` activation event, groups their
command ids by owning extension id (a JS `Map`, insertion-ordered), and for
each group loads the manifest, appends the absent `onCommand:<id>` events,
sorts, and emits one whole-document edit only when something was appended.
The manifest store is modelled as the snapshot itself: reading an
extension's package.json returns its `packageJSON`, and applying the edit
set replaces the stored activation events. -/

/-- The `missingEvents` filter of `fixAllMissingActivationEvents`:
`c.type === "registration" && c.extensionId && c.description.includes("missing \"onCommand:")`. -/
def missingEventsFilter (conflicts : List Conflict) : List Conflict :=
  conflicts.filter (fun c => decide (c.type = ConflictType.registration) &&
    c.extensionId.isSome && strIncludes "missing \"onCommand:" c.description)

/-- The (extension id, conflict id) pairs of the filtered conflicts, in
order; the grouping below is the `extensionGroups` map of the source. -/
def missingEventPairs (conflicts : List Conflict) : List (String × String) :=
  (missingEventsFilter conflicts).filterMap
    (fun c => c.extensionId.map (fun eid => (eid, c.id)))

/-- Command ids grouped by owning extension id, in insertion order. -/
def missingEventGroups (conflicts : List Conflict) : List (String × List String) :=
  groupPairs (missingEventPairs conflicts)

/-- The append loop of the source: for each grouped command id, push
`onCommand:<id>` onto the activation-events collection unless already
present. -/
def pushEvents (evs : List String) (cmdIds : List String) : List String :=
  cmdIds.foldl (fun acc cmdId =>
    if acc.contains ("onCommand:" ++ cmdId) then acc
    else acc ++ ["onCommand:" ++ cmdId]) evs

/-- `json.activationEvents.sort()` (string comparison). -/
def sortStrings (l : List String) : List String :=
  l.mergeSort (fun a b => decide (a ≤ b))

/-- The edit the batch pass produces for one group: look the extension up
(a vanished extension is skipped), append the missing events, and emit
`(extension id, new sorted events)` only when the collection grew. -/
def computeEditFor (exts : List Extension) (g : String × List String) :
    Option (String × List String) :=
  match exts.find? (fun e => decide (e.id = g.1)) with
  | none => none
  | some ext =>
    if ext.packageJSON.activationEvents.length <
        (pushEvents ext.packageJSON.activationEvents g.2).length then
      some (g.1, sortStrings (pushEvents ext.packageJSON.activationEvents g.2))
    else none

/-- The full edit set of one batch pass. -/
def computeEdits (exts : List Extension) (rt : List String) :
    List (String × List String) :=
  (missingEventGroups (detectRegistrationMismatches exts rt)).filterMap
    (computeEditFor exts)

theorem computeEditFor_none (exts : List Extension) (g : String × List String)
    (hfind : exts.find? (fun e => decide (e.id = g.1)) = none) :
    computeEditFor exts g = none := by
  unfold computeEditFor
  rw [hfind]

theorem computeEditFor_some (exts : List Extension) (g : String × List String)
    (ext : Extension) (hfind : exts.find? (fun e => decide (e.id = g.1)) = some ext) :
    computeEditFor exts g =
      (if ext.packageJSON.activationEvents.length <
          (pushEvents ext.packageJSON.activationEvents g.2).length then
        some (g.1, sortStrings (pushEvents ext.packageJSON.activationEvents g.2))
      else none) := by
  unfold computeEditFor
  rw [hfind]

/-- Apply the edit for one extension's manifest, if any. -/
def applyEdit (edits : List (String × List String)) (e : Extension) : Extension :=
  match edits.find? (fun ed => decide (ed.1 = e.id)) with
  | some ed => { e with packageJSON := { e.packageJSON with activationEvents := ed.2 } }
  | none => e

/-- Apply a whole edit set to the manifest store. -/
def applyEdits (exts : List Extension) (edits : List (String × List String)) :
    List Extension :=
  exts.map (applyEdit edits)

theorem applyEdit_id (edits : List (String × List String)) (e : Extension) :
    (applyEdit edits e).id = e.id := by
  rw [applyEdit]
  cases edits.find? (fun ed => decide (ed.1 = e.id)) <;> rfl

theorem applyEdit_isActive (edits : List (String × List String)) (e : Extension) :
    (applyEdit edits e).isActive = e.isActive := by
  rw [applyEdit]
  cases edits.find? (fun ed => decide (ed.1 = e.id)) <;> rfl

theorem applyEdit_commands (edits : List (String × List String)) (e : Extension) :
    (applyEdit edits e).packageJSON.commands = e.packageJSON.commands := by
  rw [applyEdit]
  cases edits.find? (fun ed => decide (ed.1 = e.id)) <;> rfl

theorem applyEdit_ownerName (edits : List (String × List String)) (e : Extension) :
    ownerName (applyEdit edits e) = ownerName e := by
  rw [applyEdit]
  cases edits.find? (fun ed => decide (ed.1 = e.id)) <;> rfl

theorem applyEdit_isBuiltin (edits : List (String × List String)) (e : Extension) :
    isBuiltin (applyEdit edits e) = isBuiltin e := by
  rw [isBuiltin, isBuiltin, applyEdit_id]

theorem applyEdit_activation (edits : List (String × List String)) (e : Extension) :
    (applyEdit edits e).packageJSON.activationEvents = e.packageJSON.activationEvents ∨
    ∃ ed ∈ edits, ed.1 = e.id ∧
      (applyEdit edits e).packageJSON.activationEvents = ed.2 := by
  rw [applyEdit]
  cases hf : edits.find? (fun ed => decide (ed.1 = e.id)) with
  | none => exact Or.inl rfl
  | some ed =>
    refine Or.inr ⟨ed, List.mem_of_find?_eq_some hf, ?_, rfl⟩
    have := List.find?_some hf
    simpa using this

theorem ghostRecord_applyEdit (edits : List (String × List String)) (e : Extension)
    (cmdId : String) :
    ghostRecord (applyEdit edits e) cmdId = ghostRecord e cmdId := by
  rw [ghostRecord, ghostRecord, applyEdit_ownerName, applyEdit_id]

theorem ghostConflict_applyEdit (rt : List String) (edits : List (String × List String))
    (e : Extension) (cmdId : String) :
    ghostConflict rt (applyEdit edits e) cmdId = ghostConflict rt e cmdId := by
  rw [ghostConflict, ghostConflict, applyEdit_isActive, ghostRecord_applyEdit]

theorem mem_ghostConflict (rt : List String) (ext : Extension) (cmdId : String)
    (c : Conflict) :
    c ∈ ghostConflict rt ext cmdId ↔
      ((!(rt.contains cmdId) && ext.isActive) = true ∧ c = ghostRecord ext cmdId) := by
  rw [ghostConflict]
  split
  · rename_i h
    exact ⟨fun hc => ⟨h, List.mem_singleton.mp hc⟩,
      fun hc => by rw [hc.2]; exact List.mem_singleton_self _⟩
  · rename_i h
    exact ⟨fun hc => absurd hc (List.not_mem_nil c), fun hc => absurd hc.1 h⟩

theorem mem_missingActivationConflict (ext : Extension) (cmdId : String) (c : Conflict) :
    c ∈ missingActivationConflict ext cmdId ↔
      ((!(ext.packageJSON.activationEvents.contains ("onCommand:" ++ cmdId)) &&
        !(ext.packageJSON.activationEvents.contains "*" ||
          ext.packageJSON.activationEvents.contains "onStartupFinished")) = true ∧
        c = missingRecord ext cmdId) := by
  rw [missingActivationConflict]
  split
  · rename_i h
    exact ⟨fun hc => ⟨h, List.mem_singleton.mp hc⟩,
      fun hc => by rw [hc.2]; exact List.mem_singleton_self _⟩
  · rename_i h
    exact ⟨fun hc => absurd hc (List.not_mem_nil c), fun hc => absurd hc.1 h⟩

theorem mem_eagerActivationConflict (ext : Extension) (c : Conflict) :
    c ∈ eagerActivationConflict ext ↔
      (ext.packageJSON.activationEvents.contains "*" = true ∧ c = eagerRecord ext) := by
  rw [eagerActivationConflict]
  split
  · rename_i h
    exact ⟨fun hc => ⟨h, List.mem_singleton.mp hc⟩,
      fun hc => by rw [hc.2]; exact List.mem_singleton_self _⟩
  · rename_i h
    exact ⟨fun hc => absurd hc (List.not_mem_nil c), fun hc => absurd hc.1 h⟩

theorem mem_detectRegistrationMismatches (exts : List Extension) (rt : List String)
    (c : Conflict) :
    c ∈ detectRegistrationMismatches exts rt ↔
      ∃ ext ∈ exts, isBuiltin ext = false ∧
        ((∃ cmd ∈ ext.packageJSON.commands,
            c ∈ ghostConflict rt ext cmd.command ∨
            c ∈ missingActivationConflict ext cmd.command) ∨
          c ∈ eagerActivationConflict ext) := by
  rw [detectRegistrationMismatches]
  simp only [List.mem_flatMap, List.mem_filter, registrationConflictsFor,
    List.mem_append, Bool.not_eq_eq_eq_not, Bool.not_true]
  constructor
  · rintro ⟨ext, ⟨hmem, hnb⟩, hc⟩
    exact ⟨ext, hmem, hnb, by simpa using hc⟩
  · rintro ⟨ext, hmem, hnb, hc⟩
    exact ⟨ext, ⟨hmem, hnb⟩, by simpa using hc⟩

theorem pushEvents_append (ids : List String) :
    ∀ acc : List String, ∃ added : List String,
      pushEvents acc ids = acc ++ added ∧ ∀ a ∈ added, a ∉ acc := by
  induction ids with
  | nil => intro acc; exact ⟨[], by simp [pushEvents], by simp⟩
  | cons id ids ih =>
    intro acc
    rw [pushEvents, List.foldl_cons]
    by_cases hc : acc.contains ("onCommand:" ++ id) = true
    · rcases ih acc with ⟨added, h1, h2⟩
      rw [if_pos hc]
      exact ⟨added, h1, h2⟩
    · rcases ih (acc ++ ["onCommand:" ++ id]) with ⟨added, h1, h2⟩
      rw [if_neg hc]
      refine ⟨("onCommand:" ++ id) :: added, ?_, ?_⟩
      · rw [pushEvents] at h1
        rw [h1, List.append_assoc, List.singleton_append]
      · intro a ha
        rcases List.mem_cons.mp ha with rfl | ha
        · exact fun hmem => hc (List.elem_eq_true_of_mem hmem)
        · intro hmem
          exact h2 a ha (List.mem_append.mpr (Or.inl hmem))

theorem mem_pushEvents_super (ids : List String) :
    ∀ (acc : List String) (x : String), x ∈ acc → x ∈ pushEvents acc ids := by
  induction ids with
  | nil => intro acc x hx; simpa [pushEvents] using hx
  | cons id ids ih =>
    intro acc x hx
    rw [pushEvents, List.foldl_cons]
    by_cases hc : acc.contains ("onCommand:" ++ id) = true
    · rw [if_pos hc]
      exact ih acc x hx
    · rw [if_neg hc]
      exact ih _ x (List.mem_append.mpr (Or.inl hx))

theorem mem_pushEvents_of_mem (ids : List String) :
    ∀ (acc : List String) (id : String), id ∈ ids →
      ("onCommand:" ++ id) ∈ pushEvents acc ids := by
  induction ids with
  | nil => intro acc id h; simp at h
  | cons id0 ids ih =>
    intro acc id h
    rw [pushEvents, List.foldl_cons]
    rcases List.mem_cons.mp h with rfl | h
    · by_cases hc : acc.contains ("onCommand:" ++ id) = true
      · rw [if_pos hc]
        exact mem_pushEvents_super ids acc _ (List.mem_of_elem_eq_true hc)
      · rw [if_neg hc]
        exact mem_pushEvents_super ids _ _ (List.mem_append.mpr (Or.inr (by simp)))
    · by_cases hc : acc.contains ("onCommand:" ++ id0) = true
      · rw [if_pos hc]
        exact ih acc id h
      · rw [if_neg hc]
        exact ih _ id h

theorem pushEvents_eq_self (ids : List String) :
    ∀ acc : List String, (∀ id ∈ ids, ("onCommand:" ++ id) ∈ acc) →
      pushEvents acc ids = acc := by
  induction ids with
  | nil => intro acc _; rfl
  | cons id ids ih =>
    intro acc hall
    rw [pushEvents, List.foldl_cons,
      if_pos (List.elem_eq_true_of_mem (hall id (List.mem_cons_self id ids)))]
    exact ih acc (fun i hi => hall i (List.mem_cons_of_mem id hi))

theorem mem_sortStrings (l : List String) (x : String) :
    x ∈ sortStrings l ↔ x ∈ l :=
  (List.mergeSort_perm l _).mem_iff

theorem sortStrings_perm (l : List String) : (sortStrings l).Perm l :=
  List.mergeSort_perm l _

theorem infix_append_middle (A B C D E : List Char) :
    C <:+: A ++ (B ++ (C ++ (D ++ E))) :=
  ((List.prefix_append C (D ++ E)).isInfix.trans
    (List.suffix_append B (C ++ (D ++ E))).isInfix).trans
    (List.suffix_append A (B ++ (C ++ (D ++ E)))).isInfix

/-- The description of a missing-activation conflict always contains the
marker text the batch filter looks for. -/
theorem strIncludes_missingRecord (ext : Extension) (cmdId : String) :
    strIncludes "missing \"onCommand:" (missingRecord ext cmdId).description = true := by
  rw [strIncludes, listIncludes_iff]
  have h1 : "missing \"onCommand:".data <:+: "\" is missing \"onCommand:".data := by
    decide
  refine h1.trans ?_
  simp only [missingRecord, String.data_append, List.append_assoc]
  exact infix_append_middle _ _ _ _ _

theorem ext_eq_of_id_nodup (l : List Extension)
    (hnd : (l.map (fun e => e.id)).Nodup) {a b : Extension}
    (ha : a ∈ l) (hb : b ∈ l) (heq : a.id = b.id) : a = b := by
  induction l with
  | nil => simp at ha
  | cons e rest ih =>
    simp only [List.map_cons, List.nodup_cons] at hnd
    rcases List.mem_cons.mp ha with ha1 | ha1
    · rcases List.mem_cons.mp hb with hb1 | hb1
      · rw [ha1, hb1]
      · subst ha1
        exact absurd (List.mem_map.mpr ⟨b, hb1, heq.symm⟩) hnd.1
    · rcases List.mem_cons.mp hb with hb1 | hb1
      · subst hb1
        exact absurd (List.mem_map.mpr ⟨a, ha1, heq⟩) hnd.1
      · exact ih hnd.2 ha1 hb1

theorem find?_pair_of_mem (m : List (String × List String))
    (hnd : (m.map (fun e => e.1)).Nodup) {e : String × List String} (he : e ∈ m) :
    m.find? (fun x => decide (x.1 = e.1)) = some e := by
  induction m with
  | nil => simp at he
  | cons f rest ih =>
    simp only [List.map_cons, List.nodup_cons] at hnd
    rcases List.mem_cons.mp he with rfl | he
    · simp [List.find?]
    · have hne : f.1 ≠ e.1 := by
        intro hcontra
        exact hnd.1 (hcontra ▸ List.mem_map.mpr ⟨e, he, rfl⟩)
      simp only [List.find?, decide_eq_false hne]
      exact ih hnd.2 he

theorem find?_ext_of_mem (l : List Extension)
    (hnd : (l.map (fun e => e.id)).Nodup) {e : Extension} (he : e ∈ l) :
    l.find? (fun x => decide (x.id = e.id)) = some e := by
  induction l with
  | nil => simp at he
  | cons f rest ih =>
    simp only [List.map_cons, List.nodup_cons] at hnd
    rcases List.mem_cons.mp he with rfl | he
    · simp [List.find?]
    · have hne : f.id ≠ e.id := by
        intro hcontra
        exact hnd.1 (hcontra ▸ List.mem_map.mpr ⟨e, he, rfl⟩)
      simp only [List.find?, decide_eq_false hne]
      exact ih hnd.2 he

theorem mem_missingEventsFilter (conflicts : List Conflict) (c : Conflict) :
    c ∈ missingEventsFilter conflicts ↔
      c ∈ conflicts ∧ c.type = ConflictType.registration ∧
      c.extensionId.isSome = true ∧
      strIncludes "missing \"onCommand:" c.description = true := by
  rw [missingEventsFilter, List.mem_filter]
  constructor
  · rintro ⟨h1, h2⟩
    simp only [Bool.and_eq_true, decide_eq_true_eq] at h2
    exact ⟨h1, h2.1.1, h2.1.2, h2.2⟩
  · rintro ⟨h1, h2, h3, h4⟩
    refine ⟨h1, ?_⟩
    simp only [Bool.and_eq_true, decide_eq_true_eq]
    exact ⟨⟨h2, h3⟩, h4⟩

theorem mem_missingEventPairs (conflicts : List Conflict) (p : String × String) :
    p ∈ missingEventPairs conflicts ↔
      ∃ c ∈ missingEventsFilter conflicts,
        c.extensionId = some p.1 ∧ c.id = p.2 := by
  rw [missingEventPairs, List.mem_filterMap]
  constructor
  · rintro ⟨c, hc, hmap⟩
    cases hext : c.extensionId with
    | none => rw [hext] at hmap; simp at hmap
    | some eid =>
      rw [hext] at hmap
      have hp : (eid, c.id) = p := by simpa using hmap
      exact ⟨c, hc, by rw [hext, ← hp], by rw [← hp]⟩
  · rintro ⟨c, hc, hext, hid⟩
    exact ⟨c, hc, by rw [hext, hid]; rfl⟩

theorem computeEdits_key_of_mem (exts : List Extension) (rt : List String)
    {ed : String × List String} (hed : ed ∈ computeEdits exts rt) :
    ∃ g ∈ missingEventGroups (detectRegistrationMismatches exts rt), ∃ ext : Extension,
      exts.find? (fun e => decide (e.id = g.1)) = some ext ∧
      ext.packageJSON.activationEvents.length <
        (pushEvents ext.packageJSON.activationEvents g.2).length ∧
      ed = (g.1, sortStrings (pushEvents ext.packageJSON.activationEvents g.2)) := by
  rw [computeEdits, List.mem_filterMap] at hed
  rcases hed with ⟨g, hg, hf⟩
  cases hfind : exts.find? (fun e => decide (e.id = g.1)) with
  | none => rw [computeEditFor_none exts g hfind] at hf; exact absurd hf (by simp)
  | some ext =>
    rw [computeEditFor_some exts g ext hfind] at hf
    split at hf
    · rename_i hlen
      exact ⟨g, hg, ext, hfind, hlen, (Option.some_inj.mp hf).symm⟩
    · exact absurd hf (by simp)

theorem computeEdits_keys_nodup (exts : List Extension) (rt : List String) :
    ((computeEdits exts rt).map (fun ed => ed.1)).Nodup := by
  have hsub : ((computeEdits exts rt).map (fun ed => ed.1)).Sublist
      ((missingEventGroups (detectRegistrationMismatches exts rt)).map (fun g => g.1)) := by
    rw [computeEdits]
    generalize missingEventGroups (detectRegistrationMismatches exts rt) = groups
    induction groups with
    | nil => simp
    | cons g gs ih =>
      cases hfind : exts.find? (fun e => decide (e.id = g.1)) with
      | none =>
        rw [List.filterMap_cons_none (computeEditFor_none exts g hfind),
          List.map_cons]
        exact ih.trans (List.sublist_cons_self _ _)
      | some ext =>
        by_cases hlen : ext.packageJSON.activationEvents.length <
            (pushEvents ext.packageJSON.activationEvents g.2).length
        · rw [List.filterMap_cons_some
            (by rw [computeEditFor_some exts g ext hfind, if_pos hlen]),
            List.map_cons, List.map_cons]
          exact ih.cons₂ g.1
        · rw [List.filterMap_cons_none
            (by rw [computeEditFor_some exts g ext hfind, if_neg hlen]),
            List.map_cons]
          exact ih.trans (List.sublist_cons_self _ _)
  exact (groupPairs_keys_nodup _).sublist hsub

theorem applyEdit_eq_some (edits : List (String × List String)) (e : Extension)
    (ed : String × List String)
    (hfind : edits.find? (fun x => decide (x.1 = e.id)) = some ed) :
    applyEdit edits e =
      { e with packageJSON := { e.packageJSON with activationEvents := ed.2 } } := by
  unfold applyEdit
  rw [hfind]

theorem applyEdit_eq_self (edits : List (String × List String)) (e : Extension)
    (hfind : edits.find? (fun x => decide (x.1 = e.id)) = none) :
    applyEdit edits e = e := by
  unfold applyEdit
  rw [hfind]

theorem contains_eq_false_iff (l : List String) (x : String) :
    l.contains x = false ↔ x ∉ l := by
  constructor
  · intro h hm
    have ht : l.contains x = true := List.elem_eq_true_of_mem hm
    rw [ht] at h
    exact absurd h (by simp)
  · intro h
    cases hc : l.contains x with
    | false => rfl
    | true => exact absurd (List.mem_of_elem_eq_true hc) h

theorem missing_cond_iff (ext : Extension) (cmdId : String) :
    ((!(ext.packageJSON.activationEvents.contains ("onCommand:" ++ cmdId)) &&
      !(ext.packageJSON.activationEvents.contains "*" ||
        ext.packageJSON.activationEvents.contains "onStartupFinished")) = true) ↔
    (("onCommand:" ++ cmdId) ∉ ext.packageJSON.activationEvents ∧
      "*" ∉ ext.packageJSON.activationEvents ∧
      "onStartupFinished" ∉ ext.packageJSON.activationEvents) := by
  rw [Bool.and_eq_true, Bool.not_eq_true', Bool.not_eq_true', Bool.or_eq_false_iff,
    contains_eq_false_iff, contains_eq_false_iff, contains_eq_false_iff]

theorem mem_applyEdits (exts : List Extension) (edits : List (String × List String))
    (ext2 : Extension) :
    ext2 ∈ applyEdits exts edits ↔ ∃ e ∈ exts, ext2 = applyEdit edits e := by
  rw [applyEdits, List.mem_map]
  constructor
  · rintro ⟨e, he, rfl⟩
    exact ⟨e, he, rfl⟩
  · rintro ⟨e, he, rfl⟩
    exact ⟨e, he, rfl⟩

theorem applyEdits_map_id (exts : List Extension) (edits : List (String × List String)) :
    (applyEdits exts edits).map (fun e => e.id) = exts.map (fun e => e.id) := by
  rw [applyEdits, List.map_map]
  induction exts with
  | nil => rfl
  | cons e es ih =>
    simp only [List.map_cons]
    rw [ih]
    congr 1
    exact applyEdit_id edits e

/-- After the batch pass, the updated manifest still contains every event the
original manifest had. -/
theorem applyEdit_supset (exts : List Extension) (rt : List String)
    (hids : (exts.map (fun e => e.id)).Nodup) (ext : Extension) (hmem : ext ∈ exts) :
    ∀ x ∈ ext.packageJSON.activationEvents,
      x ∈ (applyEdit (computeEdits exts rt) ext).packageJSON.activationEvents := by
  intro x hx
  rcases applyEdit_activation (computeEdits exts rt) ext with h | ⟨ed, hed, hkey, h⟩
  · rw [h]; exact hx
  · rw [h]
    rcases computeEdits_key_of_mem exts rt hed with ⟨g, hg, extB, hfind, hlen, hedeq⟩
    have hextBmem : extB ∈ exts := List.mem_of_find?_eq_some hfind
    have hextBid : extB.id = g.1 := by simpa using List.find?_some hfind
    have hgid : g.1 = ext.id := by rw [hedeq] at hkey; exact hkey
    have hBeq : extB = ext :=
      ext_eq_of_id_nodup exts hids hextBmem hmem (by rw [hextBid, hgid])
    subst hBeq
    rw [hedeq]
    show x ∈ sortStrings (pushEvents extB.packageJSON.activationEvents g.2)
    rw [mem_sortStrings]
    exact mem_pushEvents_super g.2 _ x hx

/-- After the batch pass, the updated manifest contains `onCommand:<id>` for
every id the pass grouped under the extension. -/
theorem applyEdit_group_mem (exts : List Extension) (rt : List String)
    (hids : (exts.map (fun e => e.id)).Nodup) (ext : Extension) (hmem : ext ∈ exts)
    (id : String)
    (hpair : (ext.id, id) ∈ missingEventPairs (detectRegistrationMismatches exts rt)) :
    ("onCommand:" ++ id) ∈
      (applyEdit (computeEdits exts rt) ext).packageJSON.activationEvents := by
  have hid_lk : id ∈ groupLookup (groupPairs
      (missingEventPairs (detectRegistrationMismatches exts rt))) ext.id := by
    rw [groupLookup_groupPairs]
    exact List.mem_map.mpr ⟨(ext.id, id), List.mem_filter.mpr ⟨hpair, by simp⟩, rfl⟩
  set lk := groupLookup (groupPairs
    (missingEventPairs (detectRegistrationMismatches exts rt))) ext.id with hlk
  have hlk_ne : lk ≠ [] := fun h => by rw [h] at hid_lk; simp at hid_lk
  have hentry : (ext.id, lk) ∈
      missingEventGroups (detectRegistrationMismatches exts rt) := by
    rw [missingEventGroups, mem_groupPairs_iff]
    exact ⟨by rw [hlk, groupLookup_groupPairs], hlk_ne⟩
  have hfind : exts.find? (fun e => decide (e.id = ext.id)) = some ext :=
    find?_ext_of_mem exts hids hmem
  by_cases hlen : ext.packageJSON.activationEvents.length <
      (pushEvents ext.packageJSON.activationEvents lk).length
  · have hedmem : (ext.id, sortStrings (pushEvents ext.packageJSON.activationEvents lk))
        ∈ computeEdits exts rt := by
      rw [computeEdits, List.mem_filterMap]
      refine ⟨(ext.id, lk), hentry, ?_⟩
      rw [computeEditFor_some exts (ext.id, lk) ext hfind]
      rw [if_pos hlen]
    have hfinded : (computeEdits exts rt).find? (fun x => decide (x.1 = ext.id)) =
        some (ext.id, sortStrings (pushEvents ext.packageJSON.activationEvents lk)) :=
      find?_pair_of_mem (computeEdits exts rt) (computeEdits_keys_nodup exts rt) hedmem
    rw [applyEdit_eq_some (computeEdits exts rt) ext _ hfinded]
    show ("onCommand:" ++ id) ∈
      sortStrings (pushEvents ext.packageJSON.activationEvents lk)
    rw [mem_sortStrings]
    exact mem_pushEvents_of_mem lk ext.packageJSON.activationEvents id hid_lk
  · have hnoedit : ∀ ed ∈ computeEdits exts rt, ed.1 ≠ ext.id := by
      intro ed hed heq
      rcases computeEdits_key_of_mem exts rt hed with ⟨g, hg, extB, hfindB, hlenB, hedeq⟩
      have hg1 : g.1 = ext.id := by rw [hedeq] at heq; exact heq
      have hg2 : g.2 = lk := by
        have hmemg : g ∈ groupPairs
            (missingEventPairs (detectRegistrationMismatches exts rt)) := by
          rw [missingEventGroups] at hg
          exact hg
        have := groupLookup_of_mem _ (groupPairs_keys_nodup _) hmemg
        rw [hg1] at this
        rw [hlk, ← this]
      have hBeq : extB = ext := by
        rw [hg1, hfind] at hfindB
        exact (Option.some_inj.mp hfindB).symm
      rw [hBeq, hg2] at hlenB
      exact hlen hlenB
    have hfnone : (computeEdits exts rt).find? (fun x => decide (x.1 = ext.id)) = none := by
      rw [List.find?_eq_none]
      intro ed hed
      simpa using hnoedit ed hed
    rw [applyEdit_eq_self (computeEdits exts rt) ext hfnone]
    have hpush := mem_pushEvents_of_mem lk ext.packageJSON.activationEvents id hid_lk
    rcases pushEvents_append lk ext.packageJSON.activationEvents with ⟨added, hpa, _⟩
    have haddednil : added = [] := by
      by_contra hne
      apply hlen
      rw [hpa, List.length_append]
      have h0 : 0 < added.length := List.length_pos.mpr hne
      omega
    rw [hpa, haddednil, List.append_nil] at hpush
    exact hpush

/-- After one batch pass, a second pass finds nothing left to append: every
conflict it would group already has its `onCommand:` event present, so no
group produces an edit. -/
theorem computeEdits_applyEdits_nil (exts : List Extension) (rt : List String)
    (hids : (exts.map (fun e => e.id)).Nodup) :
    computeEdits (applyEdits exts (computeEdits exts rt)) rt = [] := by
  have hids2 : ((applyEdits exts (computeEdits exts rt)).map (fun e => e.id)).Nodup := by
    rw [applyEdits_map_id]
    exact hids
  rw [computeEdits, List.filterMap_eq_nil_iff]
  intro g hg
  cases hfind : (applyEdits exts (computeEdits exts rt)).find?
      (fun e => decide (e.id = g.1)) with
  | none => exact computeEditFor_none _ g hfind
  | some extB =>
    rw [computeEditFor_some _ g extB hfind]
    have hextBmem : extB ∈ applyEdits exts (computeEdits exts rt) :=
      List.mem_of_find?_eq_some hfind
    have hextBid : extB.id = g.1 := by simpa using List.find?_some hfind
    have hall : ∀ id ∈ g.2,
        ("onCommand:" ++ id) ∈ extB.packageJSON.activationEvents := by
      intro id hidg
      have hgmem : g ∈ groupPairs (missingEventPairs
          (detectRegistrationMismatches (applyEdits exts (computeEdits exts rt)) rt)) := by
        rw [missingEventGroups] at hg
        exact hg
      have hg2 := ((mem_groupPairs_iff _ g).mp hgmem).1
      rw [hg2] at hidg
      rcases List.mem_map.mp hidg with ⟨p, hpf, hpid⟩
      have hp1 : p.1 = g.1 := by simpa using (List.mem_filter.mp hpf).2
      have hpmem := List.mem_of_mem_filter hpf
      have hpair2 : (g.1, id) ∈ missingEventPairs
          (detectRegistrationMismatches (applyEdits exts (computeEdits exts rt)) rt) := by
        have hpe : p = (g.1, id) := Prod.ext hp1 hpid
        rw [← hpe]
        exact hpmem
      rcases (mem_missingEventPairs _ (g.1, id)).mp hpair2 with ⟨c, hcf, hcext, hcid⟩
      have hcid' : c.id = id := hcid
      have hcext' : c.extensionId = some g.1 := hcext
      rcases (mem_missingEventsFilter _ c).mp hcf with ⟨hcdet, hctype, hcsome, hcinc⟩
      rcases (mem_detectRegistrationMismatches _ rt c).mp hcdet with
        ⟨extC, hCmem, hCnb, hcase⟩
      rcases (mem_applyEdits exts _ extC).mp hCmem with ⟨extD, hDmem, hCD⟩
      rcases hcase with ⟨cmd, hcmd, hgh | hms⟩ | heg
      · rcases (mem_ghostConflict rt extC cmd.command c).mp hgh with ⟨hgcond, hceq⟩
        have hcid2 : c.id = cmd.command := by rw [hceq]; rfl
        have hcextC : c.extensionId = some extC.id := by rw [hceq]; rfl
        have hCidg : extC.id = g.1 := by
          rw [hcextC] at hcext'
          exact Option.some_inj.mp hcext'
        have hBC : extB = extC :=
          ext_eq_of_id_nodup _ hids2 hextBmem hCmem (by rw [hextBid, hCidg])
        have hcD : c = ghostRecord extD cmd.command := by
          rw [hceq, hCD, ghostRecord_applyEdit]
        have hghD : c ∈ ghostConflict rt extD cmd.command := by
          rw [mem_ghostConflict]
          refine ⟨?_, hcD⟩
          rw [hCD, applyEdit_isActive] at hgcond
          exact hgcond
        have hcdet1 : c ∈ detectRegistrationMismatches exts rt := by
          rw [mem_detectRegistrationMismatches]
          refine ⟨extD, hDmem, ?_, Or.inl ⟨cmd, ?_, Or.inl hghD⟩⟩
          · rw [hCD, applyEdit_isBuiltin] at hCnb
            exact hCnb
          · rw [hCD, applyEdit_commands] at hcmd
            exact hcmd
        have hcf1 : c ∈ missingEventsFilter (detectRegistrationMismatches exts rt) :=
          (mem_missingEventsFilter _ c).mpr ⟨hcdet1, hctype, hcsome, hcinc⟩
        have hpair1 : (extD.id, c.id) ∈
            missingEventPairs (detectRegistrationMismatches exts rt) := by
          rw [mem_missingEventPairs]
          refine ⟨c, hcf1, ?_, rfl⟩
          rw [hcextC, hCD, applyEdit_id]
        have hkey := applyEdit_group_mem exts rt hids extD hDmem c.id hpair1
        rw [← hCD] at hkey
        rw [hBC, ← hcid']
        exact hkey
      · rcases (mem_missingActivationConflict extC cmd.command c).mp hms with
          ⟨hmcond, hceq⟩
        have hmprops := (missing_cond_iff extC cmd.command).mp hmcond
        exfalso
        by_cases hfirst :
            ("onCommand:" ++ cmd.command) ∈ extD.packageJSON.activationEvents ∨
            "*" ∈ extD.packageJSON.activationEvents ∨
            "onStartupFinished" ∈ extD.packageJSON.activationEvents
        · rcases hfirst with hf | hf | hf
          · exact hmprops.1
              (by rw [hCD]; exact applyEdit_supset exts rt hids extD hDmem _ hf)
          · exact hmprops.2.1
              (by rw [hCD]; exact applyEdit_supset exts rt hids extD hDmem _ hf)
          · exact hmprops.2.2
              (by rw [hCD]; exact applyEdit_supset exts rt hids extD hDmem _ hf)
        · push_neg at hfirst
          have hmD : missingRecord extD cmd.command ∈
              missingActivationConflict extD cmd.command := by
            rw [mem_missingActivationConflict]
            exact ⟨(missing_cond_iff extD cmd.command).mpr
              ⟨hfirst.1, hfirst.2.1, hfirst.2.2⟩, rfl⟩
          have hdet1 : missingRecord extD cmd.command ∈
              detectRegistrationMismatches exts rt := by
            rw [mem_detectRegistrationMismatches]
            refine ⟨extD, hDmem, ?_, Or.inl ⟨cmd, ?_, Or.inr hmD⟩⟩
            · rw [hCD, applyEdit_isBuiltin] at hCnb
              exact hCnb
            · rw [hCD, applyEdit_commands] at hcmd
              exact hcmd
          have hf1 : missingRecord extD cmd.command ∈
              missingEventsFilter (detectRegistrationMismatches exts rt) := by
            rw [mem_missingEventsFilter]
            exact ⟨hdet1, rfl, rfl, strIncludes_missingRecord extD cmd.command⟩
          have hpair1 : (extD.id, cmd.command) ∈
              missingEventPairs (detectRegistrationMismatches exts rt) := by
            rw [mem_missingEventPairs]
            exact ⟨missingRecord extD cmd.command, hf1, rfl, rfl⟩
          have hkey := applyEdit_group_mem exts rt hids extD hDmem cmd.command hpair1
          rw [← hCD] at hkey
          exact hmprops.1 hkey
      · rcases (mem_eagerActivationConflict extC c).mp heg with ⟨_, hceq⟩
        rw [hceq] at hctype
        exact absurd hctype (by simp [eagerRecord])
    rw [pushEvents_eq_self g.2 extB.packageJSON.activationEvents hall]
    simp

/-- Claim C6.  Each edit the batch remediation produces appends only events
that were not already present (and at least one), and a second run on the
updated store produces zero edits. -/
theorem batchRemediation_idempotent (exts : List Extension) (rt : List String)
    (hids : (exts.map (fun e => e.id)).Nodup) :
    (∀ ed ∈ computeEdits exts rt, ∃ ext ∈ exts, ext.id = ed.1 ∧
      ∃ added : List String, added ≠ [] ∧
        (∀ a ∈ added, a ∉ ext.packageJSON.activationEvents) ∧
        ed.2.Perm (ext.packageJSON.activationEvents ++ added)) ∧
    computeEdits (applyEdits exts (computeEdits exts rt)) rt = [] := by
  constructor
  · intro ed hed
    rcases computeEdits_key_of_mem exts rt hed with ⟨g, hg, ext, hfind, hlen, hedeq⟩
    have hmem : ext ∈ exts := List.mem_of_find?_eq_some hfind
    have hid : ext.id = g.1 := by simpa using List.find?_some hfind
    rcases pushEvents_append g.2 ext.packageJSON.activationEvents with ⟨added, hpa, hnotin⟩
    refine ⟨ext, hmem, by rw [hedeq]; exact hid, added, ?_, hnotin, ?_⟩
    · intro hnil
      rw [hpa, hnil, List.append_nil] at hlen
      exact Nat.lt_irrefl _ hlen
    · rw [hedeq]
      show (sortStrings (pushEvents ext.packageJSON.activationEvents g.2)).Perm _
      rw [hpa]
      exact sortStrings_perm _
  · exact computeEdits_applyEdits_nil exts rt hids

/-- A concrete instance for the batch-idempotence theorem: one extension
actively declaring one command with no activation events. -/
def batchSampleExts : List Extension :=
  [ { id := "dev.batch"
      isActive := true
      packageJSON :=
        { name := "batch"
          displayName := some "Batch"
          commands := [{ command := "batch.run" }]
          keybindings := []
          activationEvents := [] } } ]

theorem batchRemediation_idempotent_witness :
    computeEdits (applyEdits batchSampleExts (computeEdits batchSampleExts []))
      [] = [] :=
  (batchRemediation_idempotent batchSampleExts [] (by decide)).2

end ExtensionLens
